import Mathlib

/-!
# Verification of the curta arithmetization core

Shallow embedding of the limb/polynomial utilities, the non-native field
addition instruction, the log-derivative lookup argument, the arithmetic
expression evaluator, the scalar-multiplication gadget wiring and the
builder budget checks of the curta/starkyx repository, together with
proofs and refutations of the specification claims C1 to C10.

Conventions: machine integers and big integers (`BigUint`) are `ℕ`;
the 64-bit STARK base field (Goldilocks in every configuration of the
repository) is `ZMod goldilocks`; fallible code (asserts) returns
`Option`; `debug_assert!` checks are modelled by separate `...Debug`
functions while the plain functions follow release semantics.
-/

namespace Curta

/-! ## Limb utilities (from `starky/src/curta/utils.rs`) -/

/-- `digits_to_biguint`: reconstruct a big integer from little-endian
16-bit digits, `x = Σ digits[i] * 2^(16*i)` (Horner form of the loop). -/
def digits_to_biguint : List ℕ → ℕ
  | [] => 0
  | d :: ds => d + 2 ^ 16 * digits_to_biguint ds

/-- Little-endian base-2^32 digits of a `BigUint` with no trailing zeros
(`BigUint::iter_u32_digits`), fuel-indexed so the recursion is structural. -/
def iterU32DigitsAux : ℕ → ℕ → List ℕ
  | 0, _ => []
  | fuel + 1, x => if x = 0 then [] else x % 2 ^ 32 :: iterU32DigitsAux fuel (x / 2 ^ 32)

/-- `BigUint::iter_u32_digits`: the value itself is always enough fuel. -/
def iterU32Digits (x : ℕ) : List ℕ := iterU32DigitsAux x x

/-- Value of a little-endian base-2^32 digit list. -/
def digitsValBase32 : List ℕ → ℕ
  | [] => 0
  | d :: ds => d + 2 ^ 32 * digitsValBase32 ds

/-- `bigint_into_u16_digits`: split the u32 digits into low/high u16 halves,
assert the result fits into `num_digits` digits (the `assert!` is modelled by
`Option`), and zero-pad (`resize`). -/
def bigint_into_u16_digits (x : ℕ) (num_digits : ℕ) : Option (List ℕ) :=
  let x_limbs := (iterU32Digits x).flatMap (fun d => [d % 2 ^ 16, d / 2 ^ 16])
  if x_limbs.length ≤ num_digits then
    some (x_limbs ++ List.replicate (num_digits - x_limbs.length) 0)
  else none

/-- Little-endian 16-bit digit expansion with exactly `n` digits: the
canonical form of a successful `bigint_into_u16_digits` result. -/
def natToU16Digits : ℕ → ℕ → List ℕ
  | _, 0 => []
  | x, n + 1 => x % 2 ^ 16 :: natToU16Digits (x / 2 ^ 16) n

/-! ## Dense coefficient-list polynomials

Embedding of the generic polynomial operations (`PolynomialOps` /
`Polynomial<T>` arithmetic, modelled from the spec since
`curta/src/polynomial` is not part of the corpus): coefficient lists over a
commutative ring, shorter operands padded with zeros. -/

section PolyDefs

variable {R S : Type*} [CommRing R] [CommRing S]

/-- Coefficient-wise polynomial addition, result length is the max. -/
def polyAdd : List R → List R → List R
  | [], q => q
  | p, [] => p
  | a :: p, b :: q => (a + b) :: polyAdd p q

/-- Coefficient-wise polynomial subtraction, result length is the max. -/
def polySub : List R → List R → List R
  | [], q => q.map (fun b => -b)
  | p, [] => p
  | a :: p, b :: q => (a - b) :: polySub p q

/-- Multiplication of a polynomial by a scalar. -/
def polyScalarMul (c : R) (p : List R) : List R := p.map (fun a => c * a)

/-- Dense polynomial multiplication (`result[i+j] += a[i]*b[j]`). -/
def polyMul : List R → List R → List R
  | [], _ => []
  | a :: p, q => polyAdd (polyScalarMul a q) ((0 : R) :: polyMul p q)

/-- Evaluation of a coefficient list at a point. -/
def polyEval : List R → R → R
  | [], _ => 0
  | a :: p, r => a + r * polyEval p r

/-- Loop body of `Polynomial::root_quotient`:
`result.push((result[i-1] - coefficients[i]) * root_inv)`. -/
def rootQuotientGo (rinv : R) : R → List R → List R
  | _, [] => []
  | prev, v :: rest => ((prev - v) * rinv) :: rootQuotientGo rinv ((prev - v) * rinv) rest

/-- `Polynomial::root_quotient` (modelled from the spec's synthetic
division: `q[0] = -v[0]/r`, `q[i] = (q[i-1] - v[i])/r`, with the field
inverse of the root passed explicitly). -/
def rootQuotient (v : List R) (rinv : R) : List R :=
  match v with
  | [] => []
  | v0 :: vs => (-v0 * rinv) :: rootQuotientGo rinv (-v0 * rinv) vs.dropLast

/-- The vanishing polynomial of non-native field addition,
`a(x) + b(x) - result(x) - carry(x) * modulus(x)`
(from `FpAddInstruction::write` and its constraint evaluation). -/
def fpAddVanishing (pA pB pC pCarry pM : List R) : List R :=
  polySub (polySub (polyAdd pA pB) pC) (polyMul pCarry pM)

end PolyDefs

/-- The integer-level coefficients of the exact quotient of a vanishing
polynomial `v` by `(x - 2^16)`: `qhat v i = Σ_{j>i} v_j 2^(16 (j-i-1))`.
Proof-side companion of `rootQuotient`. -/
def qhat (v : List ℤ) (i : ℕ) : ℤ :=
  ∑ j ∈ Finset.Ico (i + 1) v.length, v.getD j 0 * 2 ^ (16 * (j - i - 1))

/-- The full integer quotient coefficient list. -/
def qhatList (v : List ℤ) : List ℤ := (List.range (v.length - 1)).map (qhat v)

/-! ## The Goldilocks base field -/

/-- The modulus of the 64-bit STARK base field used throughout the
repository (plonky2's `GoldilocksField`, `2^64 - 2^32 + 1`). -/
def goldilocks : ℕ := 18446744069414584321

/-- The base field of the trace. -/
abbrev Fp := ZMod goldilocks

/-- The field inverse of `2^16 = 65536` in `Fp` (`root_monomial.inverse()`),
given by the explicit value `(65535 * goldilocks + 1) / 65536`. -/
def invTwo16 : Fp := 18446462594437939201

/-- `compute_root_quotient_and_shift` with release semantics: the
`debug_assert!` sanity checks compile to nothing and the quotient
coefficients are shifted by the positive offset unconditionally. -/
def compute_root_quotient_and_shift (p_vanishing : List Fp) (offset : ℕ) : List Fp :=
  (rootQuotient p_vanishing invTwo16).map (fun x => x + (offset : Fp))

/-- `compute_root_quotient_and_shift` with debug semantics: the three
`debug_assert!` checks (root evaluation, offset window via
`to_canonical_u64`, exact product identity) abort on failure. -/
def computeRootQuotientAndShiftDebug (p_vanishing : List Fp) (offset : ℕ) : Option (List Fp) :=
  if polyEval p_vanishing 65536 ≠ 0 then none
  else
    let q := rootQuotient p_vanishing invTwo16
    if ¬ (∀ c ∈ q, (-c).val < offset ∨ c.val < offset) then none
    else if polyMul q [-(65536 : Fp), 1] ≠ p_vanishing then none
    else some (q.map (fun x => x + (offset : Fp)))

/-- The `N` little-endian 16-bit limbs of `x` as integers. -/
def intLimbs (x N : ℕ) : List ℤ := (natToU16Digits x N).map (fun d : ℕ => (d : ℤ))

/-- The `N` little-endian 16-bit limbs of `x` as base-field elements
(the successful result of `to_u16_le_limbs_polynomial`). -/
def fpLimbs (x N : ℕ) : List Fp := (natToU16Digits x N).map (fun d : ℕ => (d : Fp))

/-- `to_u16_le_limbs_polynomial` (via `biguint_to_16_digits_field`): convert
a big integer into its limb polynomial, failing when it does not fit. -/
def to_u16_le_limbs_polynomial (x N : ℕ) : Option (List Fp) :=
  (bigint_into_u16_digits x N).map (fun l => l.map (fun d : ℕ => (d : Fp)))

/-! ## The field-addition instruction (`curta/src/chip/field/add.rs`) -/

/-- The per-field constants of the `FieldParameters` trait that the
addition instruction uses (`MODULUS`, `NB_LIMBS`, `WITNESS_OFFSET`;
`NB_WITNESS_LIMBS = 2 * NB_LIMBS - 2`). -/
structure FieldParameters where
  modulus : ℕ
  NB_LIMBS : ℕ
  WITNESS_OFFSET : ℕ

/-- `split_u32_limbs_to_u16_limbs`: split each canonical value into its low
and high 16-bit halves (`x as u16` truncates, hence the `% 2^16`). -/
def split_u32_limbs_to_u16_limbs (slice : List Fp) : List Fp × List Fp :=
  (slice.map (fun x => ((x.val % 2 ^ 16 : ℕ) : Fp)),
   slice.map (fun x => ((x.val / 2 ^ 16 % 2 ^ 16 : ℕ) : Fp)))

/-- `FpAddInstruction::write` (release semantics): read the operand limbs
back from the trace (`as_canonical_u64() as u16`), compute the sum and
carry over the integers, build the limb polynomials and the vanishing
polynomial, run the root-quotient witness computation and split the
shifted quotient into low/high 16-bit limb columns.  Returns the values
written to the `result`, `carry`, `witness_low` and `witness_high`
registers; `none` models the `assert!` inside the limb conversion. -/
def fpAddWrite (P : FieldParameters) (p_a p_b : List Fp) :
    Option (List Fp × List Fp × List Fp × List Fp) :=
  let a_digits := p_a.map (fun x => x.val % 2 ^ 16)
  let b_digits := p_b.map (fun x => x.val % 2 ^ 16)
  let a := digits_to_biguint a_digits
  let b := digits_to_biguint b_digits
  let result := (a + b) % P.modulus
  let carry := (a + b - result) / P.modulus
  match to_u16_le_limbs_polynomial result P.NB_LIMBS,
      to_u16_le_limbs_polynomial carry P.NB_LIMBS,
      to_u16_le_limbs_polynomial P.modulus P.NB_LIMBS with
  | some p_result, some p_carry, some p_modulus =>
    let p_vanishing := fpAddVanishing p_a p_b p_result p_carry p_modulus
    let p_witness := compute_root_quotient_and_shift p_vanishing P.WITNESS_OFFSET
    some (p_result, p_carry, (split_u32_limbs_to_u16_limbs p_witness).1,
      (split_u32_limbs_to_u16_limbs p_witness).2)
  | _, _, _ => none

/-- Read a `MemorySlice`: a contiguous run of `len` columns starting at
`start` of a trace row. -/
def readSlice (row : List Fp) (start len : ℕ) : List Fp := (row.drop start).take len

/-- The row layout of the instruction used in this development: the six
registers `a`, `b`, `result`, `carry`, `witness_low`, `witness_high`
allocated back-to-back (the builder's column cursor guarantees exactly
such a non-overlapping consecutive layout). -/
def fpAddRow (p_a p_b p_result p_carry wlow whigh : List Fp) : List Fp :=
  p_a ++ (p_b ++ (p_result ++ (p_carry ++ (wlow ++ whigh))))

/-- The constraint evaluation of `FpAddInstruction` (`AirConstraint::eval`)
against a concrete row, for the native parser whose variables are field
elements: build the vanishing polynomial from the register slices and the
constant modulus limbs, reconstruct the quotient from the witness limbs
(`util::eval_field_operation`, modelled from the spec: witness =
low + 2^16*high - offset) and return the coefficients of
`vanishing(x) - witness(x)*(x - 2^16)`, each of which is constrained to
zero. -/
def fpAddEvalConstraints (P : FieldParameters) (row : List Fp) : List Fp :=
  let N := P.NB_LIMBS
  let W := 2 * N - 2
  let p_a := readSlice row 0 N
  let p_b := readSlice row N N
  let p_result := readSlice row (2 * N) N
  let p_carry := readSlice row (3 * N) N
  let p_witness_low := readSlice row (4 * N) W
  let p_witness_high := readSlice row (4 * N + W) W
  let p_limbs := fpLimbs P.modulus N
  let p_vanishing := fpAddVanishing p_a p_b p_result p_carry p_limbs
  let p_witness_shifted := polyAdd p_witness_low (polyScalarMul 65536 p_witness_high)
  let p_witness := p_witness_shifted.map (fun x => x - (P.WITNESS_OFFSET : Fp))
  polySub p_vanishing (polyMul p_witness [-(65536 : Fp), 1])

/-! ## Arithmetic expressions and constraints
(`curta/src/chip/constraint/arithmetic/expression_slice.rs` and
`curta/src/chip/constraint/mod.rs`; the `ArithmeticExpression` wrapper with
its structural `size` and the scoped `ArithmeticConstraint` variants are
modelled from the spec, their file not being part of the corpus) -/

/-- A `MemorySlice`: a contiguous run of trace columns addressed on the
current (`Local`) or the next (`Next`) row.  The `Global`/`Public`/
`Challenge` variants are not used by the embedded fragment. -/
inductive MemorySlice where
  | Local (index length : ℕ)
  | Next (index length : ℕ)
deriving DecidableEq

/-- The row pair a constraint is evaluated against. -/
structure RowData where
  localRow : List Fp
  nextRow : List Fp

/-- `MemorySlice::eval_slice` for the native parser: read the column run
out of the row pair. -/
def MemorySlice.eval_slice (s : MemorySlice) (d : RowData) : List Fp :=
  match s with
  | .Local i l => readSlice d.localRow i l
  | .Next i l => readSlice d.nextRow i l

/-- `MemorySlice::next`: move a local slice to the next row. -/
def MemorySlice.next : MemorySlice → MemorySlice
  | .Local i l => .Next i l
  | .Next i l => .Next i l

/-- The column count of a slice (`Register::size_of`). -/
def MemorySlice.len : MemorySlice → ℕ
  | .Local _ l => l
  | .Next _ l => l

/-- `ArithmeticExpressionSlice`: the expression tree over the base field
(`Arc` sharing becomes plain children). -/
inductive ArithmeticExpressionSlice where
  | Input (input : MemorySlice)
  | Const (constants : List Fp)
  | Add (left right : ArithmeticExpressionSlice)
  | Sub (left right : ArithmeticExpressionSlice)
  | ScalarMul (scalar : Fp) (expr : ArithmeticExpressionSlice)
  | Mul (left right : ArithmeticExpressionSlice)

/-- `ArithmeticExpressionSlice::eval` for the native parser: `Add`, `Sub`
and `Mul` zip the two operand vectors (`left.iter().zip(right.iter())`),
which silently truncates to the shorter operand. -/
def ArithmeticExpressionSlice.eval (e : ArithmeticExpressionSlice) (d : RowData) : List Fp :=
  match e with
  | .Input input => input.eval_slice d
  | .Const constants => constants
  | .Add left right =>
      ((left.eval d).zip (right.eval d)).map (fun p => p.1 + p.2)
  | .Sub left right =>
      ((left.eval d).zip (right.eval d)).map (fun p => p.1 - p.2)
  | .ScalarMul scalar expr => (expr.eval d).map (fun x => x * scalar)
  | .Mul left right =>
      ((left.eval d).zip (right.eval d)).map (fun p => p.1 * p.2)

/-- `ArithmeticExpression`: an expression slice together with its
structural size (modelled from the spec). -/
structure ArithmeticExpression where
  expression : ArithmeticExpressionSlice
  size : ℕ

/-- `Register::expr()`: the input expression of a register slice. -/
def exprOf (s : MemorySlice) : ArithmeticExpression :=
  ⟨.Input s, s.len⟩

/-- `ArithmeticExpression::one()`. -/
def exprOne : ArithmeticExpression := ⟨.Const [1], 1⟩

/-- Expression addition (modelled from the spec). -/
def exprAdd (a b : ArithmeticExpression) : ArithmeticExpression :=
  ⟨.Add a.expression b.expression, a.size⟩

/-- Expression subtraction (modelled from the spec). -/
def exprSub (a b : ArithmeticExpression) : ArithmeticExpression :=
  ⟨.Sub a.expression b.expression, a.size⟩

/-- Expression multiplication (modelled from the spec). -/
def exprMul (a b : ArithmeticExpression) : ArithmeticExpression :=
  ⟨.Mul a.expression b.expression, a.size⟩

/-- `ArithmeticConstraint`: an arithmetic expression tagged with the row
scope it is enforced on (modelled from the spec). -/
inductive ArithmeticConstraint where
  | First (e : ArithmeticExpression)
  | Last (e : ArithmeticExpression)
  | Transition (e : ArithmeticExpression)
  | All (e : ArithmeticExpression)

/-- The scope tag of an emitted constraint value. -/
inductive ConstraintScope where
  | first
  | last
  | transition
  | all
deriving DecidableEq

/-- The native parser's constraint-emission state (the mutable part of the
`ConstraintConsumer` the evaluators write into). -/
structure ParserState where
  constraints : List (ConstraintScope × Fp)
deriving DecidableEq

/-- `parser.constraint*`: append one constraint value to the state. -/
def emitScoped (sc : ConstraintScope) (v : Fp) (s : ParserState) : ParserState :=
  ⟨s.constraints ++ [(sc, v)]⟩

/-- An `FpAddInstruction` as stored in a built circuit: its six register
slices together with the field parameters. -/
structure FpAddInstructionData where
  a : MemorySlice
  b : MemorySlice
  result : MemorySlice
  carry : MemorySlice
  witness_low : MemorySlice
  witness_high : MemorySlice
  params : FieldParameters

/-- The constraint values of an `FpAddInstruction` on a row pair
(same shape as `fpAddEvalConstraints`, reading through the stored slices). -/
def FpAddInstructionData.constraintValues (ins : FpAddInstructionData) (d : RowData) :
    List Fp :=
  let p_a := ins.a.eval_slice d
  let p_b := ins.b.eval_slice d
  let p_result := ins.result.eval_slice d
  let p_carry := ins.carry.eval_slice d
  let p_witness_low := ins.witness_low.eval_slice d
  let p_witness_high := ins.witness_high.eval_slice d
  let p_limbs := fpLimbs ins.params.modulus ins.params.NB_LIMBS
  let p_vanishing := fpAddVanishing p_a p_b p_result p_carry p_limbs
  let p_witness_shifted := polyAdd p_witness_low (polyScalarMul 65536 p_witness_high)
  let p_witness := p_witness_shifted.map (fun x => x - (ins.params.WITNESS_OFFSET : Fp))
  polySub p_vanishing (polyMul p_witness [-(65536 : Fp), 1])

/-- `AirConstraint::eval` of the instruction threaded through the parser
state: each computed value is emitted in order. -/
def FpAddInstructionData.evalS (ins : FpAddInstructionData) (d : RowData)
    (s : ParserState) : ParserState :=
  (ins.constraintValues d).foldl (fun st v => emitScoped .all v st) s

/-- `AirConstraint::eval` of the instruction under a `MulParser`, which
multiplies every emitted constraint by a fixed element. -/
def FpAddInstructionData.evalSMul (ins : FpAddInstructionData) (mult : Fp)
    (d : RowData) (s : ParserState) : ParserState :=
  (ins.constraintValues d).foldl (fun st v => emitScoped .all (mult * v) st) s

/-- The scope tag and expression of an arithmetic constraint. -/
def ArithmeticConstraint.parts : ArithmeticConstraint →
    ConstraintScope × ArithmeticExpression
  | .First e => (.first, e)
  | .Last e => (.last, e)
  | .Transition e => (.transition, e)
  | .All e => (.all, e)

/-- `AirConstraint::eval` of an arithmetic constraint threaded through the
parser state. -/
def ArithmeticConstraint.evalS (c : ArithmeticConstraint) (d : RowData)
    (s : ParserState) : ParserState :=
  ((c.parts.2.expression.eval d)).foldl (fun st v => emitScoped c.parts.1 v st) s

/-- `Constraint` (`curta/src/chip/constraint/mod.rs`) with the embedded
instruction set: a plain instruction constraint, an instruction constraint
multiplied by a size-one expression, or a scoped arithmetic constraint. -/
inductive Constraint where
  | Instruction (ins : FpAddInstructionData)
  | MulInstruction (e : ArithmeticExpression) (ins : FpAddInstructionData)
  | Arithmetic (c : ArithmeticConstraint)

/-- `AirConstraint::eval` for `Constraint` with explicit parser state.  The
`MulInstruction` arm asserts `expression.size == 1` and indexes
`expression.eval(parser)[0]`; both failure modes are `none`. -/
def Constraint.evalS (c : Constraint) (d : RowData) (s : ParserState) :
    Option ParserState :=
  match c with
  | .Instruction ins => some (ins.evalS d s)
  | .MulInstruction e ins =>
    if e.size = 1 then
      match e.expression.eval d with
      | el :: _ => some (ins.evalSMul el d s)
      | [] => none
    else none
  | .Arithmetic ac => some (ac.evalS d s)

/-- The pure constraint output of a `Constraint` on fixed row data. -/
def constraintOutput (c : Constraint) (d : RowData) :
    Option (List (ConstraintScope × Fp)) :=
  match c with
  | .Instruction ins => some ((ins.constraintValues d).map (fun v => (.all, v)))
  | .MulInstruction e ins =>
    if e.size = 1 then
      match e.expression.eval d with
      | el :: _ => some ((ins.constraintValues d).map (fun v => (.all, el * v)))
      | [] => none
    else none
  | .Arithmetic ac =>
    some ((ac.parts.2.expression.eval d).map (fun v => (ac.parts.1, v)))

/-! ## The double-and-add transition wiring
(`curta/src/chip/ec/edwards/scalar_mul/gadget.rs`, `ed_scalar_mul`) -/

/-- The four transition constraints `ed_scalar_mul` registers after the
double-and-add step: for each coordinate register of `result` and `temp`,
`set_to_expression_transition(&reg.next(), flag*reg.next() + (1-flag)*fresh)`
with `flag = cycle.start_bit.next()` (`set_to_expression_transition` pushes
`Transition(reg.next().expr() - expression)`, modelled from the spec and
`assert_expressions_equal_transition`). -/
def edScalarMulTransitionConstraints (startBit resultX resultY tempX tempY
    resultNextX resultNextY tempNextX tempNextY : MemorySlice) :
    List ArithmeticConstraint :=
  let flag_bit := exprOf startBit.next
  [.Transition (exprSub (exprOf resultX.next)
      (exprAdd (exprMul flag_bit (exprOf resultX.next))
        (exprMul (exprSub exprOne flag_bit) (exprOf resultNextX)))),
   .Transition (exprSub (exprOf resultY.next)
      (exprAdd (exprMul flag_bit (exprOf resultY.next))
        (exprMul (exprSub exprOne flag_bit) (exprOf resultNextY)))),
   .Transition (exprSub (exprOf tempX.next)
      (exprAdd (exprMul flag_bit (exprOf tempX.next))
        (exprMul (exprSub exprOne flag_bit) (exprOf tempNextX)))),
   .Transition (exprSub (exprOf tempY.next)
      (exprAdd (exprMul flag_bit (exprOf tempY.next))
        (exprMul (exprSub exprOne flag_bit) (exprOf tempNextY))))]

/-! ## The log-derivative lookup argument
(`curta/src/chip/table/lookup/log_der/{constraint,trace}.rs`)

Registers are embedded as trace columns `ℕ → K` (row index to value);
`reg.eval(parser)` at row `i` reads the column at `i` and `reg.next()` at
`i + 1`.  The `LookupTable` / `LogLookup` struct definitions themselves are
not under `src/` (the module file is absent); their fields are taken from
their uses in `constraint.rs` and `trace.rs`. -/

/-- The table side of a log-derivative lookup: the challenge `beta`, the
table and multiplicity columns, the per-entry `multiplicities_table_log`
columns, the running `table_accumulator` column and the `digest`. -/
structure LookupTable (K : Type*) where
  challenge : K
  table : List (ℕ → K)
  multiplicities : List (ℕ → K)
  multiplicities_table_log : List (ℕ → K)
  table_accumulator : ℕ → K
  digest : ℕ → K

section LookupDefs

variable {K : Type*} [CommRing K]

/-- The row sum `mult_table_log_sum`: the sum of all
`multiplicities_table_log` entries of one row. -/
def tableRowSum (L : LookupTable K) (i : ℕ) : K :=
  (L.multiplicities_table_log.map (fun c : ℕ → K => c i)).sum

/-- `AirConstraint::eval` for `LookupTable`
(`constraint.rs:15-80`), as the list of emitted `(scope, row-value)`
constraints, in emission order: one every-row constraint
`mult - mult_table_log*(beta - table)` per entry (the source zips with
`zip_eq`, which asserts the three lists have equal length), then the
first-row constraint `accumulator - mult_table_log_sum`, the transition
constraint `accumulator.next() - (accumulator + mult_table_log_sum.next())`
and the last-row constraint `digest - accumulator`. -/
def LookupTable.evalConstraints (L : LookupTable K) :
    List (ConstraintScope × (ℕ → K)) :=
  (L.multiplicities_table_log.zip (L.table.zip L.multiplicities)).map
    (fun p => (ConstraintScope.all,
      fun i : ℕ => p.2.2 i - p.1 i * (L.challenge - p.2.1 i))) ++
  [(ConstraintScope.first,
      fun i : ℕ => L.table_accumulator i - tableRowSum L i),
   (ConstraintScope.transition,
      fun i : ℕ => L.table_accumulator (i + 1) -
        (L.table_accumulator i + tableRowSum L (i + 1))),
   (ConstraintScope.last, fun i : ℕ => L.digest i - L.table_accumulator i)]

end LookupDefs

/-- A registered log-derivative lookup: its table side plus the looked-up
value columns, the per-chunk `row_accumulators`, the running
`log_lookup_accumulator` column and the lookup `digest`. -/
structure LogLookup (K : Type*) where
  challenge : K
  table_data : LookupTable K
  values : List (ℕ → K)
  row_accumulators : List (ℕ → K)
  log_lookup_accumulator : ℕ → K
  digest : ℕ → K

/-- `chunks_exact(2)`: consecutive pairs, dropping a trailing odd element. -/
def chunks2 {α : Type*} : List α → List (α × α)
  | a :: b :: rest => (a, b) :: chunks2 rest
  | _ => []

section LookupDefs2

variable {K : Type*} [CommRing K]

/-- The loop body of the values-side accumulator constraints: for each
later chunk, the every-row constraint
`(beta-a) + (beta-b) - (beta-a)*(beta-b)*(acc - prev)`, threading `prev`. -/
def rowAccGo (β : K) : (ℕ → K) → List (((ℕ → K) × (ℕ → K)) × (ℕ → K)) →
    List (ConstraintScope × (ℕ → K))
  | _, [] => []
  | prev, ((a, b), acc) :: rest =>
    (ConstraintScope.all, fun i : ℕ =>
      ((β - a i) + (β - b i)) - ((β - a i) * (β - b i)) * (acc i - prev i)) ::
    rowAccGo β acc rest

/-- `AirConstraint::eval` for `LogLookup` (`constraint.rs:86-187`), in
emission order: the table-side constraints, the duplicated entry-0
constraint, the chunk-0 every-row constraint
`(beta-a)+(beta-b) - acc_0*((beta-a)*(beta-b))` and the later-chunk
constraints, then the transition constraint
`acc.next() - acc - prev_value` (where `prev_value` is the *last* row
accumulator read at the current row, via `pop_back`), the first-row
constraint `acc` itself, and the last-row constraint `digest - acc`.
`none` models the `unwrap` panics on an empty table, fewer than one value
chunk, or fewer than two row accumulators. -/
def LogLookup.evalConstraints (lk : LogLookup K) :
    Option (List (ConstraintScope × (ℕ → K))) :=
  match lk.table_data.table.head?, lk.table_data.multiplicities.head?,
      lk.table_data.multiplicities_table_log.head?,
      (lk.row_accumulators.drop 1).getLast?,
      (chunks2 lk.values).zip lk.row_accumulators with
  | some t0, some m0, some l0, some prev, ((a0, b0), acc0) :: rest =>
    some (LookupTable.evalConstraints lk.table_data ++
      [(ConstraintScope.all,
          fun i : ℕ => m0 i - l0 i * (lk.challenge - t0 i))] ++
      ((ConstraintScope.all, fun i : ℕ =>
          ((lk.challenge - a0 i) + (lk.challenge - b0 i)) -
            acc0 i * ((lk.challenge - a0 i) * (lk.challenge - b0 i))) ::
        rowAccGo lk.challenge acc0 rest) ++
      [(ConstraintScope.transition, fun i : ℕ =>
          lk.log_lookup_accumulator (i + 1) - lk.log_lookup_accumulator i -
            prev i),
       (ConstraintScope.first, fun i : ℕ => lk.log_lookup_accumulator i),
       (ConstraintScope.last,
          fun i : ℕ => lk.digest i - lk.log_lookup_accumulator i)])
  | _, _, _, _, _ => none

/-- What one scope tag demands of a constraint's row values on an
`n`-row trace: every-row constraints vanish on all rows, first-row at row
`0`, transition constraints on every consecutive row pair, last-row at row
`n - 1`. -/
def scopeHolds (n : ℕ) (sc : ConstraintScope) (c : ℕ → K) : Prop :=
  match sc with
  | .all => ∀ i < n, c i = 0
  | .first => c 0 = 0
  | .transition => ∀ i, i + 1 < n → c i = 0
  | .last => c (n - 1) = 0

/-- A trace satisfies an emitted constraint list when every constraint's
scope demand holds. -/
def satisfiesConstraints (n : ℕ) (cs : List (ConstraintScope × (ℕ → K))) :
    Prop :=
  ∀ p ∈ cs, scopeHolds n p.1 p.2

instance scopeHolds.decidable {K : Type*} [CommRing K] [DecidableEq K]
    (n : ℕ) (sc : ConstraintScope) (c : ℕ → K) : Decidable (scopeHolds n sc c) := by
  unfold scopeHolds
  cases sc
  · infer_instance
  · infer_instance
  · exact decidable_of_iff (∀ i < n - 1, c i = 0)
      ⟨fun h i hi => h i (by omega), fun h i hi => h i (by omega)⟩
  · infer_instance

instance satisfiesConstraints.decidable {K : Type*} [CommRing K] [DecidableEq K]
    (n : ℕ) (cs : List (ConstraintScope × (ℕ → K))) :
    Decidable (satisfiesConstraints n cs) :=
  List.decidableBAll _ cs

end LookupDefs2

/-- Modelled from the spec: the running-sum contribution of one row on the
values side, `sum_v 1/(beta - v(i))` over the looked-up value columns (the
quantity the claim says the accumulator picks up row by row). -/
def valuesRowContributionSpec {K : Type*} [Field K] (β : K)
    (values : List (ℕ → K)) (i : ℕ) : K :=
  (values.map (fun c : ℕ → K => (β - c i)⁻¹)).sum

/-- `TraceWriter::write_log_lookup_table` (`trace.rs:53-99`) as the
`LookupTable` whose writable columns it fills: each entry's
`multiplicities_table_log` column is `mult / (beta - table)`, the
`table_accumulator` at row `i` is the running sum of the row sums of rows
`0..=i`, and the digest register is written (at row `num_rows - 1`) with
the final accumulator value. -/
def write_log_lookup_table {K : Type*} [Field K] (num_rows : ℕ) (β : K)
    (table mult : List (ℕ → K)) : LookupTable K :=
  let tlogs := (table.zip mult).map
    (fun p : (ℕ → K) × (ℕ → K) => fun i : ℕ => p.2 i / (β - p.1 i))
  let rowSum := fun i : ℕ => (tlogs.map (fun c : ℕ → K => c i)).sum
  let acc := fun i : ℕ => ∑ r ∈ Finset.range (i + 1), rowSum r
  { challenge := β
    table := table
    multiplicities := mult
    multiplicities_table_log := tlogs
    table_accumulator := acc
    digest := fun _ : ℕ => acc (num_rows - 1) }

instance fact_prime_97 : Fact (Nat.Prime 97) := ⟨by norm_num⟩

/-- A concrete two-row lookup over `ZMod 97` with challenge `beta = 0`:
an all-zero table side, two identical value chunks `(1, 2)`, and row
accumulators `47 = -3/2` and `94 = -3` solving the product-form row
constraints. Its running accumulator starts at `0` on row 0 even though
the row-0 contribution is `-3`. -/
def c3lk : LogLookup (ZMod 97) where
  challenge := 0
  table_data :=
    { challenge := 0
      table := [fun _ : ℕ => 5]
      multiplicities := [fun _ : ℕ => 0]
      multiplicities_table_log := [fun _ : ℕ => 0]
      table_accumulator := fun _ : ℕ => 0
      digest := fun _ : ℕ => 0 }
  values := [fun _ : ℕ => 1, fun _ : ℕ => 2, fun _ : ℕ => 1, fun _ : ℕ => 2]
  row_accumulators := [fun _ : ℕ => 47, fun _ : ℕ => 94]
  log_lookup_accumulator := fun i : ℕ => if i = 0 then 0 else 94
  digest := fun _ : ℕ => 94

/-- The constraint list `LogLookup::eval` emits for `c3lk`. -/
def c3cs : List (ConstraintScope × (ℕ → ZMod 97)) :=
  (LogLookup.evalConstraints c3lk).getD []

/-! ## Builder column budgets (`starkyx/src/chip/builder/mod.rs`, `build`) -/

/-- The three column budgets `build()` checks, in check order. -/
inductive BudgetKind where
  | free
  | arithmetic
  | extended
deriving DecidableEq

/-- The name of a budget as it appears in the messages. -/
def budgetName : BudgetKind → String
  | .free => "free"
  | .arithmetic => "arithmetic"
  | .extended => "extended"

/-- The `panic!` message of an over-budget check (`build()` interpolates
the allocated count into the first slot and the budget into the second). -/
def panicMessage (k : BudgetKind) (allocated budget : ℕ) : String :=
  "Not enough " ++ budgetName k ++ " columns. Expected " ++ toString allocated ++
    " " ++ budgetName k ++ " columns, got " ++ toString budget ++ "."

/-- The `println!` warning of an under-budget check. -/
def warnMessage (k : BudgetKind) (unused : ℕ) : String :=
  "Warning: " ++ toString unused ++ " " ++ budgetName k ++ " columns unused"

/-- The `AirParameters` budget constants consulted by `build()`. -/
structure AirParametersBudgets where
  NUM_ARITHMETIC_COLUMNS : ℕ
  NUM_FREE_COLUMNS : ℕ
  EXTENDED_COLUMNS : ℕ

/-- The builder's allocation indices at `build()` time. -/
structure BuilderIndices where
  local_index : ℕ
  local_arithmetic_index : ℕ
  extended_index : ℕ

/-- The column count `build()` compares against each budget:
`num_free_columns = local_index - NUM_ARITHMETIC_COLUMNS`,
`num_arithmetic_columns = local_arithmetic_index`,
`num_extended_columns = extended_index - NUM_ARITHMETIC_COLUMNS - NUM_FREE_COLUMNS`. -/
def allocatedOf (L : AirParametersBudgets) (b : BuilderIndices) : BudgetKind → ℕ
  | .free => b.local_index - L.NUM_ARITHMETIC_COLUMNS
  | .arithmetic => b.local_arithmetic_index
  | .extended => b.extended_index - L.NUM_ARITHMETIC_COLUMNS - L.NUM_FREE_COLUMNS

/-- The declared budget constant for each kind. -/
def budgetOf (L : AirParametersBudgets) : BudgetKind → ℕ
  | .free => L.NUM_FREE_COLUMNS
  | .arithmetic => L.NUM_ARITHMETIC_COLUMNS
  | .extended => L.EXTENDED_COLUMNS

/-- One `match allocated.cmp(&budget)` arm of `build()`: `Greater` panics
with the budget's message, `Less` prints a warning, `Equal` is silent. -/
def checkOne (L : AirParametersBudgets) (b : BuilderIndices) (k : BudgetKind) :
    Except (BudgetKind × String) (List String) :=
  if budgetOf L k < allocatedOf L b k then
    .error (k, panicMessage k (allocatedOf L b k) (budgetOf L k))
  else if allocatedOf L b k < budgetOf L k then
    .ok [warnMessage k (budgetOf L k - allocatedOf L b k)]
  else
    .ok []

/-- The budget-checking portion of `build()`: free, then arithmetic, then
extended columns; the first over-budget kind aborts (`panic!`), otherwise
`build()` proceeds, having printed the collected warnings. -/
def buildChecks (L : AirParametersBudgets) (b : BuilderIndices) :
    Except (BudgetKind × String) (List String) :=
  match checkOne L b .free with
  | .error e => .error e
  | .ok w1 =>
    match checkOne L b .arithmetic with
    | .error e => .error e
    | .ok w2 =>
      match checkOne L b .extended with
      | .error e => .error e
      | .ok w3 => .ok (w1 ++ w2 ++ w3)

theorem natToU16Digits_length (x n : ℕ) : (natToU16Digits x n).length = n := by
  induction n generalizing x with
  | zero => rfl
  | succ n ih => simp [natToU16Digits, ih]

theorem natToU16Digits_lt (x n : ℕ) : ∀ d ∈ natToU16Digits x n, d < 2 ^ 16 := by
  induction n generalizing x with
  | zero => simp [natToU16Digits]
  | succ n ih =>
    intro d hd
    simp only [natToU16Digits, List.mem_cons] at hd
    rcases hd with h | h
    · exact h ▸ Nat.mod_lt _ (by norm_num)
    · exact ih _ d h

theorem digits_to_biguint_natToU16Digits (n : ℕ) :
    ∀ x, digits_to_biguint (natToU16Digits x n) = x % 2 ^ (16 * n) := by
  induction n with
  | zero => intro x; simp [natToU16Digits, digits_to_biguint, Nat.mod_one]
  | succ n ih =>
    intro x
    have h2 : 2 ^ (16 * (n + 1)) = 2 ^ 16 * 2 ^ (16 * n) := by ring
    rw [natToU16Digits, digits_to_biguint, ih, h2, Nat.mod_mul]

/-- A length-`n` list of sub-2^16 digits is the canonical expansion of its value. -/
theorem natToU16Digits_of_digits (ds : List ℕ) (h : ∀ d ∈ ds, d < 2 ^ 16) :
    natToU16Digits (digits_to_biguint ds) ds.length = ds := by
  induction ds with
  | nil => rfl
  | cons d ds ih =>
    have hd : d < 2 ^ 16 := h d (List.mem_cons_self d ds)
    have hds : ∀ x ∈ ds, x < 2 ^ 16 := fun x hx => h x (List.mem_cons_of_mem d hx)
    simp only [List.length_cons, natToU16Digits, digits_to_biguint]
    rw [Nat.add_mul_mod_self_left, Nat.mod_eq_of_lt hd,
      Nat.add_mul_div_left _ _ (by norm_num : (0:ℕ) < 2 ^ 16),
      Nat.div_eq_of_lt hd, Nat.zero_add, ih hds]

theorem digits_to_biguint_append_zeros (ds : List ℕ) (k : ℕ) :
    digits_to_biguint (ds ++ List.replicate k 0) = digits_to_biguint ds := by
  induction ds with
  | nil =>
    simp only [List.nil_append]
    induction k with
    | zero => rfl
    | succ k ih => simp [List.replicate, digits_to_biguint, ih]
  | cons d ds ih => simp [digits_to_biguint, ih]

theorem iterU32DigitsAux_val (fuel : ℕ) :
    ∀ x, x ≤ fuel → digitsValBase32 (iterU32DigitsAux fuel x) = x ∧
      ∀ d ∈ iterU32DigitsAux fuel x, d < 2 ^ 32 := by
  induction fuel with
  | zero =>
    intro x hx
    interval_cases x
    simp [iterU32DigitsAux, digitsValBase32]
  | succ fuel ih =>
    intro x hx
    by_cases h0 : x = 0
    · subst h0; simp [iterU32DigitsAux, digitsValBase32]
    · have hdiv : x / 2 ^ 32 ≤ fuel := by
        have : x / 2 ^ 32 < x := Nat.div_lt_self (Nat.pos_of_ne_zero h0) (by norm_num)
        omega
      obtain ⟨hval, hlt⟩ := ih (x / 2 ^ 32) hdiv
      refine ⟨?_, ?_⟩
      · simp only [iterU32DigitsAux, if_neg h0, digitsValBase32, hval]
        omega
      · intro d hd
        simp only [iterU32DigitsAux, if_neg h0, List.mem_cons] at hd
        rcases hd with h | h
        · exact h ▸ Nat.mod_lt _ (by norm_num)
        · exact hlt d h

theorem iterU32DigitsAux_length (fuel : ℕ) :
    ∀ x k, x ≤ fuel → x < 2 ^ (32 * k) → (iterU32DigitsAux fuel x).length ≤ k := by
  induction fuel with
  | zero => intro x k hx _; interval_cases x; simp [iterU32DigitsAux]
  | succ fuel ih =>
    intro x k hx hk
    by_cases h0 : x = 0
    · subst h0; simp [iterU32DigitsAux]
    · cases k with
      | zero => simp only [Nat.mul_zero, pow_zero, Nat.lt_one_iff] at hk; exact absurd hk h0
      | succ k =>
        have hdivfuel : x / 2 ^ 32 ≤ fuel := by
          have : x / 2 ^ 32 < x := Nat.div_lt_self (Nat.pos_of_ne_zero h0) (by norm_num)
          omega
        have hdivlt : x / 2 ^ 32 < 2 ^ (32 * k) := by
          apply Nat.div_lt_of_lt_mul
          calc x < 2 ^ (32 * (k + 1)) := hk
          _ = 2 ^ 32 * 2 ^ (32 * k) := by ring
        simp only [iterU32DigitsAux, if_neg h0, List.length_cons]
        exact Nat.succ_le_succ (ih _ k hdivfuel hdivlt)

theorem digits_to_biguint_split32 (l : List ℕ) :
    digits_to_biguint (l.flatMap (fun d => [d % 2 ^ 16, d / 2 ^ 16])) = digitsValBase32 l := by
  induction l with
  | nil => rfl
  | cons d ds ih =>
    simp only [List.flatMap_cons, List.cons_append, List.nil_append]
    rw [digits_to_biguint, digits_to_biguint, ih, digitsValBase32]
    omega

theorem split32_lt (l : List ℕ) (h : ∀ d ∈ l, d < 2 ^ 32) :
    ∀ d ∈ l.flatMap (fun d => [d % 2 ^ 16, d / 2 ^ 16]), d < 2 ^ 16 := by
  intro d hd
  simp only [List.mem_flatMap] at hd
  obtain ⟨a, ha, hcase⟩ := hd
  simp only [List.mem_cons, List.mem_singleton, List.not_mem_nil, or_false] at hcase
  rcases hcase with h1 | h2
  · exact h1 ▸ Nat.mod_lt _ (by norm_num)
  · rw [h2]
    have := h a ha
    omega

theorem split32_length (l : List ℕ) :
    (l.flatMap (fun d => [d % 2 ^ 16, d / 2 ^ 16])).length = 2 * l.length := by
  induction l with
  | nil => rfl
  | cons d ds ih =>
    simp only [List.flatMap_cons, List.cons_append, List.nil_append, List.length_cons, ih]
    omega

/-- Successful conversion: for `x < 2^(16*n)` with an even digit count the
source `assert!` passes and the output is the canonical digit expansion. -/
theorem bigint_into_u16_digits_eq (x n : ℕ) (hn : Even n) (hx : x < 2 ^ (16 * n)) :
    bigint_into_u16_digits x n = some (natToU16Digits x n) := by
  obtain ⟨m, hm⟩ := hn
  have hval := (iterU32DigitsAux_val x x le_rfl).1
  have hlt32 := (iterU32DigitsAux_val x x le_rfl).2
  have hxm : x < 2 ^ (32 * m) := by
    have : 16 * n = 32 * m := by omega
    exact this ▸ hx
  have hlen32 : (iterU32Digits x).length ≤ m := iterU32DigitsAux_length x x m le_rfl hxm
  set L := (iterU32Digits x).flatMap (fun d => [d % 2 ^ 16, d / 2 ^ 16]) with hL
  have hlenL : L.length ≤ n := by
    rw [hL, split32_length]
    omega
  have hvalL : digits_to_biguint L = x := by
    rw [hL, digits_to_biguint_split32]
    exact hval
  have hltL : ∀ d ∈ L, d < 2 ^ 16 := split32_lt _ hlt32
  rw [bigint_into_u16_digits]
  simp only [← hL, if_pos hlenL]
  congr 1
  have hlen : (L ++ List.replicate (n - L.length) 0).length = n := by
    simp [List.length_append, List.length_replicate]
    omega
  have hltP : ∀ d ∈ L ++ List.replicate (n - L.length) 0, d < 2 ^ 16 := by
    intro d hd
    rcases List.mem_append.mp hd with h | h
    · exact hltL d h
    · rw [List.eq_of_mem_replicate h]; norm_num
  have hvalP : digits_to_biguint (L ++ List.replicate (n - L.length) 0) = x := by
    rw [digits_to_biguint_append_zeros, hvalL]
  calc L ++ List.replicate (n - L.length) 0
      = natToU16Digits (digits_to_biguint (L ++ List.replicate (n - L.length) 0))
          (L ++ List.replicate (n - L.length) 0).length :=
        (natToU16Digits_of_digits _ hltP).symm
    _ = natToU16Digits x n := by rw [hvalP, hlen]

/-- C5: for every big integer `x` with `0 ≤ x < modulus` (any modulus fitting
the fixed even limb count, `2^(16*n)` bounds it), converting `x` to its
`n`-limb little-endian 16-bit digit vector and back returns exactly `x`. -/
theorem c5_limb_roundtrip (n x : ℕ) (hn : Even n) (hx : x < 2 ^ (16 * n)) :
    ∃ limbs, bigint_into_u16_digits x n = some limbs ∧ digits_to_biguint limbs = x := by
  refine ⟨natToU16Digits x n, bigint_into_u16_digits_eq x n hn hx, ?_⟩
  rw [digits_to_biguint_natToU16Digits]
  exact Nat.mod_eq_of_lt hx

/-- Witness for C5 at the concrete values of the repository's own unit test. -/
theorem c5_limb_roundtrip_witness :
    Even 4 ∧ 0x1234567890abcdef < 2 ^ (16 * 4) ∧
      ∃ limbs, bigint_into_u16_digits 0x1234567890abcdef 4 = some limbs ∧
        digits_to_biguint limbs = 0x1234567890abcdef :=
  ⟨⟨2, rfl⟩, by norm_num, c5_limb_roundtrip 4 0x1234567890abcdef ⟨2, rfl⟩ (by norm_num)⟩

/-! ### Coefficient-list polynomial lemmas -/

section PolyLemmas

variable {R S : Type*} [CommRing R] [CommRing S]

theorem length_polyAdd : ∀ p q : List R, (polyAdd p q).length = max p.length q.length
  | [], q => by simp [polyAdd]
  | a :: p, [] => by simp [polyAdd]
  | a :: p, b :: q => by
    simp only [polyAdd, List.length_cons, length_polyAdd p q]
    omega

theorem length_polySub : ∀ p q : List R, (polySub p q).length = max p.length q.length
  | [], q => by simp [polySub]
  | a :: p, [] => by simp [polySub]
  | a :: p, b :: q => by
    simp only [polySub, List.length_cons, length_polySub p q]
    omega

theorem getD_map_zero {α β : Type*} [Zero α] [Zero β] (f : α → β) (hf : f 0 = 0) :
    ∀ (l : List α) (k : ℕ), (l.map f).getD k 0 = f (l.getD k 0)
  | [], k => by simp [hf]
  | a :: l, 0 => by simp
  | a :: l, k + 1 => by
    simp only [List.map_cons, List.getD_cons_succ]
    exact getD_map_zero f hf l k

theorem getD_polyAdd : ∀ (p q : List R) (k : ℕ),
    (polyAdd p q).getD k 0 = p.getD k 0 + q.getD k 0
  | [], q, k => by simp [polyAdd]
  | a :: p, [], k => by simp [polyAdd]
  | a :: p, b :: q, 0 => by simp [polyAdd]
  | a :: p, b :: q, k + 1 => by
    simp only [polyAdd, List.getD_cons_succ]
    exact getD_polyAdd p q k

theorem getD_polySub : ∀ (p q : List R) (k : ℕ),
    (polySub p q).getD k 0 = p.getD k 0 - q.getD k 0
  | [], q, k => by
    simp only [polySub, List.getD_nil]
    rw [getD_map_zero (fun b => -b) neg_zero]
    ring
  | a :: p, [], k => by simp [polySub]
  | a :: p, b :: q, 0 => by simp [polySub]
  | a :: p, b :: q, k + 1 => by
    simp only [polySub, List.getD_cons_succ]
    exact getD_polySub p q k

theorem polyEval_polyAdd : ∀ (p q : List R) (r : R),
    polyEval (polyAdd p q) r = polyEval p r + polyEval q r
  | [], q, r => by simp [polyAdd, polyEval]
  | a :: p, [], r => by simp [polyAdd, polyEval]
  | a :: p, b :: q, r => by
    simp only [polyAdd, polyEval, polyEval_polyAdd p q r]
    ring

theorem polyEval_map_neg : ∀ (q : List R) (r : R),
    polyEval (q.map (fun b => -b)) r = -polyEval q r
  | [], r => by simp [polyEval]
  | a :: q, r => by
    simp only [List.map_cons, polyEval, polyEval_map_neg q r]
    ring

theorem polyEval_polySub : ∀ (p q : List R) (r : R),
    polyEval (polySub p q) r = polyEval p r - polyEval q r
  | [], q, r => by
    simp only [polySub, polyEval, polyEval_map_neg]
    ring
  | a :: p, [], r => by simp [polySub, polyEval]
  | a :: p, b :: q, r => by
    simp only [polySub, polyEval, polyEval_polySub p q r]
    ring

theorem polyEval_polyScalarMul (c : R) : ∀ (q : List R) (r : R),
    polyEval (polyScalarMul c q) r = c * polyEval q r
  | [], r => by simp [polyScalarMul, polyEval]
  | a :: q, r => by
    simp only [polyScalarMul, List.map_cons, polyEval]
    rw [show (q.map fun a => c * a) = polyScalarMul c q from rfl,
      polyEval_polyScalarMul c q r]
    ring

theorem polyEval_polyMul : ∀ (p q : List R) (r : R),
    polyEval (polyMul p q) r = polyEval p r * polyEval q r
  | [], q, r => by simp [polyMul, polyEval]
  | a :: p, q, r => by
    simp only [polyMul, polyEval_polyAdd, polyEval_polyScalarMul, polyEval,
      polyEval_polyMul p q r]
    ring

theorem map_polyAdd (f : R →+* S) : ∀ p q : List R,
    (polyAdd p q).map f = polyAdd (p.map f) (q.map f)
  | [], q => by simp [polyAdd]
  | a :: p, [] => by simp [polyAdd]
  | a :: p, b :: q => by
    simp only [polyAdd, List.map_cons, map_add]
    rw [map_polyAdd f p q]

theorem map_polySub (f : R →+* S) : ∀ p q : List R,
    (polySub p q).map f = polySub (p.map f) (q.map f)
  | [], q => by
    simp only [polySub, List.map_map, List.map_nil]
    congr 1
    funext b
    simp
  | a :: p, [] => by simp [polySub]
  | a :: p, b :: q => by
    simp only [polySub, List.map_cons, map_sub]
    rw [map_polySub f p q]

theorem map_polyScalarMul (f : R →+* S) (c : R) (q : List R) :
    (polyScalarMul c q).map f = polyScalarMul (f c) (q.map f) := by
  simp only [polyScalarMul, List.map_map]
  congr 1
  funext a
  simp

theorem map_polyMul (f : R →+* S) : ∀ p q : List R,
    (polyMul p q).map f = polyMul (p.map f) (q.map f)
  | [], q => by simp [polyMul]
  | a :: p, q => by
    simp only [polyMul, map_polyAdd, map_polyScalarMul, List.map_cons, map_zero]
    rw [map_polyMul f p q]

theorem map_polyEval (f : R →+* S) : ∀ (p : List R) (r : R),
    f (polyEval p r) = polyEval (p.map f) (f r)
  | [], r => by simp [polyEval]
  | a :: p, r => by
    simp only [polyEval, List.map_cons, map_add, map_mul]
    rw [map_polyEval f p r]

theorem polyMul_nil (q : List R) : polyMul [] q = [] := rfl

theorem polyMul_cons (a : R) (p q : List R) :
    polyMul (a :: p) q = polyAdd (polyScalarMul a q) ((0 : R) :: polyMul p q) := rfl

theorem rootQuotientGo_cons (rinv prev v : R) (rest : List R) :
    rootQuotientGo rinv prev (v :: rest) =
      ((prev - v) * rinv) :: rootQuotientGo rinv ((prev - v) * rinv) rest := rfl

theorem rootQuotient_cons (rinv v0 : R) (vs : List R) :
    rootQuotient (v0 :: vs) rinv =
      (-v0 * rinv) :: rootQuotientGo rinv (-v0 * rinv) vs.dropLast := rfl

theorem length_polyMul : ∀ p q : List R, p ≠ [] → q ≠ [] →
    (polyMul p q).length = p.length + q.length - 1
  | [], _, hp, _ => absurd rfl hp
  | a :: p, q, _, hq => by
    have hq1 : 1 ≤ q.length := List.length_pos.mpr hq
    rcases p with _ | ⟨a', p'⟩
    · rw [polyMul_cons, polyMul_nil, length_polyAdd]
      simp only [polyScalarMul, List.length_map, List.length_cons, List.length_nil]
      omega
    · rw [polyMul_cons, length_polyAdd, List.length_cons,
        length_polyMul (a' :: p') q (by simp) hq]
      simp only [polyScalarMul, List.length_map, List.length_cons]
      omega

theorem polyMul_linear_getD (r : R) : ∀ (Q : List R) (k : ℕ),
    (polyMul Q [-r, 1]).getD k 0 =
      (if k = 0 then 0 else Q.getD (k - 1) 0) - r * Q.getD k 0
  | [], k => by
    simp only [polyMul_nil, List.getD_nil]
    split <;> simp
  | a :: Q', 0 => by
    rw [polyMul_cons, getD_polyAdd]
    simp only [polyScalarMul, List.map_cons, List.map_nil, List.getD_cons_zero, if_pos rfl]
    simp
    ring
  | a :: Q', k + 1 => by
    rw [polyMul_cons, getD_polyAdd, List.getD_cons_succ,
      polyMul_linear_getD r Q' k]
    rcases k with _ | j
    · simp only [polyScalarMul, List.map_cons, List.map_nil,
        List.getD_cons_succ, List.getD_cons_zero]
      simp
      ring
    · simp only [polyScalarMul, List.map_cons, List.map_nil,
        List.getD_cons_succ, List.getD_nil, Nat.add_sub_cancel]
      simp only [if_neg (Nat.succ_ne_zero j), if_neg (Nat.succ_ne_zero (j + 1)),
        Nat.add_sub_cancel, List.getD_cons_succ]
      ring

theorem rootQuotientGo_eq (rinv : R) :
    ∀ (l Q : List R) (prev : R), Q.length = l.length →
      (∀ i, i < l.length → Q.getD i 0 =
        ((if i = 0 then prev else Q.getD (i - 1) 0) - l.getD i 0) * rinv) →
      rootQuotientGo rinv prev l = Q
  | [], Q, prev, hlen, _ => by
    rw [List.length_nil, List.length_eq_zero] at hlen
    simp [rootQuotientGo, hlen]
  | v :: rest, Q, prev, hlen, hrec => by
    rcases Q with _ | ⟨b, Q'⟩
    · simp at hlen
    · have h0 := hrec 0 (by simp)
      simp only [List.getD_cons_zero, List.getD_cons_succ, if_pos rfl] at h0
      have hb : (prev - v) * rinv = b := h0.symm
      rw [rootQuotientGo_cons, hb]
      congr 1
      apply rootQuotientGo_eq rinv rest Q' b
      · simpa using hlen
      · intro i hi
        have h := hrec (i + 1) (by simp only [List.length_cons]; omega)
        simp only [List.getD_cons_succ, if_neg (Nat.succ_ne_zero i),
          Nat.add_sub_cancel] at h
        rcases i with _ | i'
        · simp only [List.getD_cons_zero] at h
          simpa using h
        · simp only [List.getD_cons_succ] at h
          simp only [if_neg (Nat.succ_ne_zero i'), Nat.add_sub_cancel]
          exact h

theorem rootQuotient_eq (rinv : R) (v Q : List R) (hv : 2 ≤ v.length)
    (hlen : Q.length = v.length - 1)
    (h0 : Q.getD 0 0 = -v.getD 0 0 * rinv)
    (hrec : ∀ i, i + 1 < Q.length →
      Q.getD (i + 1) 0 = (Q.getD i 0 - v.getD (i + 1) 0) * rinv) :
    rootQuotient v rinv = Q := by
  rcases v with _ | ⟨v0, vs⟩
  · simp at hv
  · rcases Q with _ | ⟨b, Q'⟩
    · simp only [List.length_nil, List.length_cons] at hlen hv
      omega
    · simp only [List.getD_cons_zero] at h0
      have hb : -v0 * rinv = b := h0.symm
      rw [rootQuotient_cons, hb]
      congr 1
      apply rootQuotientGo_eq rinv vs.dropLast Q' b
      · simp only [List.length_dropLast]
        simp only [List.length_cons] at hlen ⊢
        omega
      · intro i hi
        simp only [List.length_dropLast] at hi
        have hilen : i + 1 < (b :: Q').length := by
          simp only [List.length_cons] at hlen ⊢
          omega
        have h := hrec i hilen
        simp only [List.getD_cons_succ] at h
        have hdrop : vs.dropLast.getD i 0 = vs.getD i 0 := by
          have hi' : i < vs.dropLast.length := by
            simp only [List.length_dropLast]
            exact hi
          rw [List.getD_eq_getElem _ _ hi', List.getElem_dropLast,
            ← List.getD_eq_getElem _ _ (by
              simp only [List.length_dropLast] at hi'
              omega)]
        rcases i with _ | i'
        · simp only [List.getD_cons_zero] at h
          rw [if_pos rfl, hdrop, h]
        · simp only [List.getD_cons_succ] at h
          simp only [if_neg (Nat.succ_ne_zero i'), Nat.add_sub_cancel, hdrop]
          exact h

end PolyLemmas

/-! ### The integer quotient and the synthetic-division identity -/

theorem polyEval_eq_sum {R : Type*} [CommRing R] (r : R) : ∀ p : List R,
    polyEval p r = ∑ j ∈ Finset.range p.length, p.getD j 0 * r ^ j
  | [] => by simp [polyEval]
  | a :: p => by
    rw [polyEval, polyEval_eq_sum r p, List.length_cons, Finset.sum_range_succ']
    simp only [List.getD_cons_succ, List.getD_cons_zero, pow_zero, mul_one]
    rw [Finset.mul_sum, add_comm]
    congr 1
    apply Finset.sum_congr rfl
    intro j _
    ring

theorem qhat_top (v : List ℤ) (hv : 2 ≤ v.length) :
    qhat v (v.length - 2) = v.getD (v.length - 1) 0 := by
  obtain ⟨L, hL⟩ : ∃ L, v.length = L + 2 := ⟨v.length - 2, by omega⟩
  unfold qhat
  rw [hL, show L + 2 - 2 = L by omega, show L + 2 - 1 = L + 1 by omega,
    show L + 2 = L + 1 + 1 by omega, Nat.Ico_succ_singleton, Finset.sum_singleton,
    show L + 1 - L - 1 = 0 by omega, Nat.mul_zero, pow_zero, mul_one]

theorem qhat_rec (v : List ℤ) (i : ℕ) (h : i + 2 < v.length) :
    qhat v i = v.getD (i + 1) 0 + 2 ^ 16 * qhat v (i + 1) := by
  unfold qhat
  rw [Finset.sum_eq_sum_Ico_succ_bot (by omega : i + 1 < v.length)]
  rw [show i + 1 - i - 1 = 0 by omega]
  simp only [Nat.mul_zero, pow_zero, mul_one]
  congr 1
  rw [Finset.mul_sum]
  apply Finset.sum_congr rfl
  intro j hj
  simp only [Finset.mem_Ico] at hj
  rw [show 16 * (j - i - 1) = 16 + 16 * (j - (i + 1) - 1) by omega, pow_add]
  ring

theorem qhat_zero (v : List ℤ) (hv : 1 ≤ v.length) :
    polyEval v 65536 = v.getD 0 0 + 2 ^ 16 * qhat v 0 := by
  rw [polyEval_eq_sum, Finset.range_eq_Ico,
    Finset.sum_eq_sum_Ico_succ_bot (by omega : 0 < v.length)]
  simp only [pow_zero, mul_one]
  congr 1
  unfold qhat
  rw [Finset.mul_sum]
  apply Finset.sum_congr rfl
  intro j hj
  simp only [Finset.mem_Ico] at hj
  have h1 : (65536 : ℤ) ^ j = 2 ^ (16 * j) := by
    rw [show (65536 : ℤ) = 2 ^ 16 by norm_num, ← pow_mul]
  have h2 : (2 : ℤ) ^ 16 * 2 ^ (16 * (j - 0 - 1)) = 2 ^ (16 * j) := by
    rw [← pow_add, show 16 + 16 * (j - 0 - 1) = 16 * j by omega]
  rw [h1, ← h2]
  ring

theorem length_qhatList (v : List ℤ) : (qhatList v).length = v.length - 1 := by
  simp [qhatList]

theorem qhatList_getD (v : List ℤ) (i : ℕ) (h : i < v.length - 1) :
    (qhatList v).getD i 0 = qhat v i := by
  have hlen : i < ((List.range (v.length - 1)).map (qhat v)).length := by simpa using h
  rw [qhatList, List.getD_eq_getElem _ _ hlen, List.getElem_map, List.getElem_range]

/-- The exact synthetic-division identity over the integers: whenever the
vanishing polynomial evaluates to `0` at `2^16`, the integer quotient
satisfies `Q(x) * (x - 2^16) = V(x)` coefficient-wise. -/
theorem qhat_mul_linear (v : List ℤ) (hv : 2 ≤ v.length)
    (heval : polyEval v 65536 = 0) :
    polyMul (qhatList v) [-(65536 : ℤ), 1] = v := by
  have hQne : qhatList v ≠ [] := by
    rw [← List.length_pos, length_qhatList]
    omega
  have htwo : (2 : ℤ) ^ 16 = 65536 := by norm_num
  have hlen : (polyMul (qhatList v) [-(65536 : ℤ), 1]).length = v.length := by
    rw [length_polyMul _ _ hQne (by simp), length_qhatList]
    simp only [List.length_cons, List.length_nil]
    omega
  apply List.ext_getElem hlen
  intro k hk1 hk2
  rw [← List.getD_eq_getElem _ 0 hk1, ← List.getD_eq_getElem _ 0 hk2,
    polyMul_linear_getD]
  rw [hlen] at hk1
  by_cases hk0 : k = 0
  · subst hk0
    rw [if_pos rfl, qhatList_getD v 0 (by omega)]
    have h0 := qhat_zero v (by omega)
    rw [heval, htwo] at h0
    linarith
  · by_cases hktop : k = v.length - 1
    · rw [if_neg hk0]
      have hQk : (qhatList v).getD k 0 = 0 := by
        apply List.getD_eq_default
        rw [length_qhatList]
        omega
      rw [hQk, qhatList_getD v (k - 1) (by omega),
        show k - 1 = v.length - 2 by omega, qhat_top v hv,
        show v.length - 1 = k from hktop.symm]
      ring
    · rw [if_neg hk0, qhatList_getD v (k - 1) (by omega),
        qhatList_getD v k (by omega)]
      have hrec := qhat_rec v (k - 1) (by omega)
      rw [show k - 1 + 1 = k by omega, htwo] at hrec
      rw [hrec]
      ring

/-! ### The Goldilocks bridge -/

theorem invTwo16_mul : (65536 : Fp) * invTwo16 = 1 := by decide

/-- Over the base field, the quotient computed by `root_quotient` is the
image of the integer quotient. -/
theorem rootQuotient_cast (v : List ℤ) (hv : 2 ≤ v.length)
    (heval : polyEval v 65536 = 0) :
    rootQuotient (v.map (fun z : ℤ => (z : Fp))) invTwo16 =
      (qhatList v).map (fun z : ℤ => (z : Fp)) := by
  have htwo : (2 : ℤ) ^ 16 = 65536 := by norm_num
  have castMul : ∀ z w : ℤ, (65536 : ℤ) * z = w → ((z : ℤ) : Fp) = (w : Fp) * invTwo16 := by
    intro z w hzw
    have hc : ((65536 : ℤ) * z : ℤ) = (w : ℤ) := hzw
    have hcast : (65536 : Fp) * (z : Fp) = (w : Fp) := by
      have := congrArg (fun t : ℤ => (t : Fp)) hc
      push_cast at this
      exact this
    calc ((z : ℤ) : Fp) = ((65536 : Fp) * invTwo16) * (z : Fp) := by
          rw [invTwo16_mul, one_mul]
      _ = ((65536 : Fp) * (z : Fp)) * invTwo16 := by ring
      _ = (w : Fp) * invTwo16 := by rw [hcast]
  apply rootQuotient_eq
  · simpa using hv
  · simp [length_qhatList]
  · rw [getD_map_zero (fun z : ℤ => (z : Fp)) (by simp),
      getD_map_zero (fun z : ℤ => (z : Fp)) (by simp),
      qhatList_getD v 0 (by omega)]
    have h0 := qhat_zero v (by omega)
    rw [heval, htwo] at h0
    have key : (65536 : ℤ) * qhat v 0 = -(v.getD 0 0) := by linarith
    rw [castMul _ _ key]
    push_cast
    ring
  · intro i hi
    rw [List.length_map, length_qhatList] at hi
    rw [getD_map_zero (fun z : ℤ => (z : Fp)) (by simp),
      getD_map_zero (fun z : ℤ => (z : Fp)) (by simp),
      getD_map_zero (fun z : ℤ => (z : Fp)) (by simp),
      qhatList_getD v (i + 1) (by omega), qhatList_getD v i (by omega)]
    have hrec := qhat_rec v i (by omega)
    rw [htwo] at hrec
    have key : (65536 : ℤ) * qhat v (i + 1) = qhat v i - v.getD (i + 1) 0 := by linarith
    rw [castMul _ _ key]
    push_cast
    ring

/-! ### Limb polynomials and the vanishing polynomial of field addition -/

theorem polyEval_digits (ds : List ℕ) :
    polyEval (ds.map (fun d : ℕ => (d : ℤ))) 65536 = (digits_to_biguint ds : ℤ) := by
  induction ds with
  | nil => simp [polyEval, digits_to_biguint]
  | cons d ds ih =>
    simp only [List.map_cons, polyEval, digits_to_biguint, ih]
    push_cast
    ring

theorem intLimbs_length (x N : ℕ) : (intLimbs x N).length = N := by
  simp [intLimbs, natToU16Digits_length]

theorem polyEval_intLimbs (x N : ℕ) (h : x < 2 ^ (16 * N)) :
    polyEval (intLimbs x N) 65536 = (x : ℤ) := by
  rw [intLimbs, polyEval_digits, digits_to_biguint_natToU16Digits, Nat.mod_eq_of_lt h]

theorem fpLimbs_eq_cast (x N : ℕ) :
    fpLimbs x N = (intLimbs x N).map (fun z : ℤ => (z : Fp)) := by
  simp only [fpLimbs, intLimbs, List.map_map, Function.comp_def, Int.cast_natCast]

theorem map_fpAddVanishing {R S : Type*} [CommRing R] [CommRing S] (f : R →+* S)
    (pA pB pC pCarry pM : List R) :
    (fpAddVanishing pA pB pC pCarry pM).map f =
      fpAddVanishing (pA.map f) (pB.map f) (pC.map f) (pCarry.map f) (pM.map f) := by
  rw [fpAddVanishing, fpAddVanishing, map_polySub, map_polySub, map_polyAdd, map_polyMul]

/-- The carry of a non-native field addition with reduced operands. -/
theorem carry_spec (a b m : ℕ) (hm : 0 < m) (ha : a < m) (hb : b < m) :
    (a + b - (a + b) % m) / m = (a + b) / m ∧
      (a + b) % m + (a + b) / m * m = a + b ∧ (a + b) / m ≤ 1 := by
  have hmod := Nat.div_add_mod (a + b) m
  have hcomm : (a + b) / m * m = m * ((a + b) / m) := Nat.mul_comm _ _
  have hsub : a + b - (a + b) % m = m * ((a + b) / m) := by omega
  refine ⟨?_, by omega, ?_⟩
  · rw [hsub, Nat.mul_div_cancel_left _ hm]
  · have : a + b < 2 * m := by omega
    have := Nat.div_lt_of_lt_mul (by omega : a + b < m * 2)
    omega

/-- Length of the vanishing polynomial when all five limb polynomials have
`N` coefficients. -/
theorem fpAddVanishing_intLimbs_length (a b c k m N : ℕ) (hN : 1 ≤ N) :
    (fpAddVanishing (intLimbs a N) (intLimbs b N) (intLimbs c N)
      (intLimbs k N) (intLimbs m N)).length = 2 * N - 1 := by
  have hne : ∀ x : ℕ, intLimbs x N ≠ [] := by
    intro x
    rw [← List.length_pos, intLimbs_length]
    omega
  rw [fpAddVanishing, length_polySub, length_polySub, length_polyAdd,
    length_polyMul _ _ (hne k) (hne m)]
  simp only [intLimbs_length]
  omega

/-- The integer vanishing polynomial of a valid addition quadruple evaluates
to zero at `2^16`. -/
theorem fpAddVanishing_intLimbs_eval (a b m N : ℕ) (_hN : 1 ≤ N) (hm : 0 < m)
    (hmFit : m < 2 ^ (16 * N)) (ha : a < m) (hb : b < m) :
    polyEval (fpAddVanishing (intLimbs a N) (intLimbs b N)
      (intLimbs ((a + b) % m) N)
      (intLimbs ((a + b - (a + b) % m) / m) N) (intLimbs m N)) 65536 = 0 := by
  obtain ⟨hcar, hmod, hcar1⟩ := carry_spec a b m hm ha hb
  have h1 : (1 : ℕ) ≤ 2 ^ (16 * N) := Nat.one_le_two_pow
  rw [fpAddVanishing, polyEval_polySub, polyEval_polySub, polyEval_polyAdd,
    polyEval_polyMul, polyEval_intLimbs a N (by omega),
    polyEval_intLimbs b N (by omega),
    polyEval_intLimbs ((a + b) % m) N (by
      have := Nat.mod_lt (a + b) hm
      omega),
    polyEval_intLimbs ((a + b - (a + b) % m) / m) N (by omega),
    polyEval_intLimbs m N (by omega), hcar]
  have hz : (((a + b) % m : ℕ) : ℤ) + (((a + b) / m : ℕ) : ℤ) * (m : ℤ) =
      (a : ℤ) + (b : ℤ) := by
    exact_mod_cast hmod
  linarith

/-- C2: for every vanishing polynomial `V = a(x) + b(x) - c(x) - carry(x)*m(x)`
built from a valid quadruple `(a, b, c = (a+b) mod m, carry)`, `V(2^16) = 0`,
and the quotient computed inside `compute_root_quotient_and_shift` (before the
offset shift, i.e. `root_quotient`) satisfies `Q(x)*(x - 2^16) = V(x)` exactly,
coefficient-wise. -/
theorem c2_root_quotient_correctness (N a b m : ℕ) (hN : 2 ≤ N) (hm : 0 < m)
    (hmFit : m < 2 ^ (16 * N)) (ha : a < m) (hb : b < m) :
    polyEval (fpAddVanishing (fpLimbs a N) (fpLimbs b N)
      (fpLimbs ((a + b) % m) N)
      (fpLimbs ((a + b - (a + b) % m) / m) N) (fpLimbs m N)) 65536 = 0 ∧
    polyMul (rootQuotient (fpAddVanishing (fpLimbs a N) (fpLimbs b N)
        (fpLimbs ((a + b) % m) N)
        (fpLimbs ((a + b - (a + b) % m) / m) N) (fpLimbs m N)) invTwo16)
      [-(65536 : Fp), 1] =
      fpAddVanishing (fpLimbs a N) (fpLimbs b N) (fpLimbs ((a + b) % m) N)
        (fpLimbs ((a + b - (a + b) % m) / m) N) (fpLimbs m N) := by
  set c := (a + b) % m with hc
  set k := (a + b - (a + b) % m) / m with hk
  set Vz := fpAddVanishing (intLimbs a N) (intLimbs b N) (intLimbs c N)
    (intLimbs k N) (intLimbs m N) with hVz
  have hVzLen : Vz.length = 2 * N - 1 :=
    fpAddVanishing_intLimbs_length a b c k m N (by omega)
  have hVzEval : polyEval Vz 65536 = 0 :=
    fpAddVanishing_intLimbs_eval a b m N (by omega) hm hmFit ha hb
  have hcastf : ∀ x : ℕ, fpLimbs x N = (intLimbs x N).map
      (fun z => ((z : ℤ) : Fp)) := fun x => fpLimbs_eq_cast x N
  have hmapV : fpAddVanishing (fpLimbs a N) (fpLimbs b N) (fpLimbs c N)
      (fpLimbs k N) (fpLimbs m N) = Vz.map (fun z : ℤ => (z : Fp)) := by
    rw [hcastf, hcastf, hcastf, hcastf, hcastf, hVz]
    rw [show (fun z : ℤ => (z : Fp)) = ⇑(Int.castRingHom Fp) from rfl,
      map_fpAddVanishing]
  rw [hmapV]
  constructor
  · have h65 : (Int.castRingHom Fp) (65536 : ℤ) = (65536 : Fp) := by
      simp
    have := map_polyEval (Int.castRingHom Fp) Vz 65536
    rw [hVzEval, map_zero, h65] at this
    rw [show (fun z : ℤ => (z : Fp)) = ⇑(Int.castRingHom Fp) from rfl]
    exact this.symm
  · rw [rootQuotient_cast Vz (by omega) hVzEval]
    have hlist : [-(65536 : Fp), 1] = ([-(65536 : ℤ), 1].map
        (fun z => ((z : ℤ) : Fp))) := by
      simp
    rw [hlist, show (fun z : ℤ => (z : Fp)) = ⇑(Int.castRingHom Fp) from rfl,
      ← map_polyMul, qhat_mul_linear Vz (by omega) hVzEval]

/-- Witness for C2 at the concrete quadruple `a = b = 65535`,
`m = 131073 = 2^17 + 1` with `N = 2` limbs. -/
theorem c2_root_quotient_correctness_witness :
    (2 ≤ 2 ∧ 0 < 131073 ∧ 131073 < 2 ^ (16 * 2) ∧ 65535 < 131073) ∧
    (polyEval (fpAddVanishing (fpLimbs 65535 2) (fpLimbs 65535 2)
      (fpLimbs ((65535 + 65535) % 131073) 2)
      (fpLimbs ((65535 + 65535 - (65535 + 65535) % 131073) / 131073) 2)
      (fpLimbs 131073 2)) 65536 = 0 ∧
    polyMul (rootQuotient (fpAddVanishing (fpLimbs 65535 2) (fpLimbs 65535 2)
        (fpLimbs ((65535 + 65535) % 131073) 2)
        (fpLimbs ((65535 + 65535 - (65535 + 65535) % 131073) / 131073) 2)
        (fpLimbs 131073 2)) invTwo16)
      [-(65536 : Fp), 1] =
      fpAddVanishing (fpLimbs 65535 2) (fpLimbs 65535 2)
        (fpLimbs ((65535 + 65535) % 131073) 2)
        (fpLimbs ((65535 + 65535 - (65535 + 65535) % 131073) / 131073) 2)
        (fpLimbs 131073 2)) :=
  ⟨⟨le_rfl, by norm_num, by norm_num, by norm_num⟩,
    c2_root_quotient_correctness 2 65535 65535 131073 le_rfl (by norm_num)
      (by norm_num) (by norm_num) (by norm_num)⟩

/-! ### C6: quotient coefficients outside the offset window -/

/-- C6 counterexample: a vanishing polynomial whose quotient coefficient
`2^30` lies far outside the `2^20` offset window.  In a production build
`compute_root_quotient_and_shift` simply returns the shifted coefficients
(no failure), while the debug build trips the `debug_assert!`. -/
theorem c6_window_counterexample :
    compute_root_quotient_and_shift
        [(18446673700670406657 : Fp), 1073741824] (2 ^ 20) =
      [(1074790400 : Fp)] ∧
    ¬ ((-(1073741824 : Fp)).val < 2 ^ 20 ∨ (1073741824 : Fp).val < 2 ^ 20) ∧
    computeRootQuotientAndShiftDebug
        [(18446673700670406657 : Fp), 1073741824] (2 ^ 20) = none := by
  refine ⟨by decide, by decide, by decide⟩

/-- C6 amended: an out-of-window quotient coefficient is caught only by a
debug assertion; the release-mode function performs the offset shift
unchecked and returns normally. -/
theorem c6_window_amended (v : List Fp) (offset : ℕ)
    (h : ∃ q ∈ rootQuotient v invTwo16, ¬ ((-q).val < offset ∨ q.val < offset)) :
    computeRootQuotientAndShiftDebug v offset = none ∧
    compute_root_quotient_and_shift v offset =
      (rootQuotient v invTwo16).map (fun x => x + (offset : Fp)) := by
  refine ⟨?_, rfl⟩
  obtain ⟨q, hq, hqw⟩ := h
  rw [computeRootQuotientAndShiftDebug]
  by_cases heval : polyEval v 65536 = 0
  · rw [if_neg (by simpa using heval)]
    rw [if_pos (by
      intro hall
      exact hqw (hall q hq))]
  · rw [if_pos (by simpa using heval)]

/-! ### C1: supporting lemmas -/

theorem natToU16Digits_zero (k : ℕ) : natToU16Digits 0 k = List.replicate k 0 := by
  induction k with
  | zero => rfl
  | succ k ih => simp [natToU16Digits, List.replicate, ih]

theorem intLimbs_le_one (x N : ℕ) (hx : x ≤ 1) (hN : 1 ≤ N) :
    intLimbs x N = (x : ℤ) :: List.replicate (N - 1) 0 := by
  obtain ⟨N', rfl⟩ : ∃ N', N = N' + 1 := ⟨N - 1, by omega⟩
  rw [intLimbs, natToU16Digits,
    Nat.mod_eq_of_lt (by omega), Nat.div_eq_of_lt (by omega), natToU16Digits_zero]
  simp [List.map_replicate]

theorem polyMul_replicate_zero_getD {R : Type*} [CommRing R] :
    ∀ (t : ℕ) (q : List R) (j : ℕ), (polyMul (List.replicate t 0) q).getD j 0 = 0
  | 0, q, j => by simp [polyMul_nil]
  | t + 1, q, j => by
    rw [List.replicate, polyMul_cons, getD_polyAdd]
    have h1 : (polyScalarMul (0 : R) q).getD j 0 = 0 := by
      rw [polyScalarMul, getD_map_zero (fun a : R => 0 * a) (by ring)]
      ring
    rw [h1]
    rcases j with _ | j'
    · simp
    · rw [List.getD_cons_succ, polyMul_replicate_zero_getD t q j']
      ring

theorem polyMul_carry_getD {R : Type*} [CommRing R] (k0 : R) (t : ℕ) (q : List R) (j : ℕ) :
    (polyMul (k0 :: List.replicate t 0) q).getD j 0 = k0 * q.getD j 0 := by
  rw [polyMul_cons, getD_polyAdd]
  have h1 : (polyScalarMul k0 q).getD j 0 = k0 * q.getD j 0 := by
    rw [polyScalarMul, getD_map_zero (fun a : R => k0 * a) (by ring)]
  rw [h1]
  rcases j with _ | j'
  · simp
  · rw [List.getD_cons_succ, polyMul_replicate_zero_getD t q j']
    ring

theorem intLimbs_getD_bounds (x N j : ℕ) :
    0 ≤ (intLimbs x N).getD j 0 ∧ (intLimbs x N).getD j 0 ≤ 65535 := by
  rw [intLimbs, getD_map_zero (fun d : ℕ => (d : ℤ)) (by simp)]
  constructor
  · exact Int.ofNat_nonneg _
  · by_cases hj : j < (natToU16Digits x N).length
    · have hmem : (natToU16Digits x N).getD j 0 ∈ natToU16Digits x N := by
        rw [List.getD_eq_getElem _ _ hj]
        exact List.getElem_mem hj
      have := natToU16Digits_lt x N _ hmem
      omega
    · rw [List.getD_eq_default _ _ (by omega)]
      norm_num

/-- Bound on every coefficient of the integer vanishing polynomial of a
valid addition quadruple. -/
theorem fpAddVanishing_intLimbs_bound (a b c k m N : ℕ) (hk : k ≤ 1) (hN : 1 ≤ N) :
    ∀ j, -131070 ≤ (fpAddVanishing (intLimbs a N) (intLimbs b N) (intLimbs c N)
      (intLimbs k N) (intLimbs m N)).getD j 0 ∧
      (fpAddVanishing (intLimbs a N) (intLimbs b N) (intLimbs c N)
        (intLimbs k N) (intLimbs m N)).getD j 0 ≤ 131070 := by
  intro j
  rw [fpAddVanishing, getD_polySub, getD_polySub, getD_polyAdd,
    intLimbs_le_one k N hk hN, polyMul_carry_getD]
  obtain ⟨ha0, ha1⟩ := intLimbs_getD_bounds a N j
  obtain ⟨hb0, hb1⟩ := intLimbs_getD_bounds b N j
  obtain ⟨hc0, hc1⟩ := intLimbs_getD_bounds c N j
  obtain ⟨hm0, hm1⟩ := intLimbs_getD_bounds m N j
  have hk0 : (0 : ℤ) ≤ (k : ℤ) := Int.ofNat_nonneg _
  have hk1 : (k : ℤ) ≤ 1 := by exact_mod_cast hk
  have hmul0 : 0 ≤ (k : ℤ) * (intLimbs m N).getD j 0 := mul_nonneg hk0 hm0
  have hmul1 : (k : ℤ) * (intLimbs m N).getD j 0 ≤ 65535 := by
    calc (k : ℤ) * (intLimbs m N).getD j 0 ≤ 1 * (intLimbs m N).getD j 0 :=
          mul_le_mul_of_nonneg_right hk1 hm0
      _ = (intLimbs m N).getD j 0 := one_mul _
      _ ≤ 65535 := hm1
  constructor <;> linarith

/-- The integer quotient coefficients of a bounded vanishing polynomial lie
in `[-2, 2]`. -/
theorem qhat_bounds (v : List ℤ) (hv : 2 ≤ v.length) (heval : polyEval v 65536 = 0)
    (hb : ∀ j, -131070 ≤ v.getD j 0 ∧ v.getD j 0 ≤ 131070) :
    ∀ i, i < v.length - 1 → -2 ≤ qhat v i ∧ qhat v i ≤ 2 := by
  intro i
  induction i with
  | zero =>
    intro _
    have h0 := qhat_zero v (by omega)
    rw [heval] at h0
    obtain ⟨hv0, hv1⟩ := hb 0
    have h2 : (2 : ℤ) ^ 16 = 65536 := by norm_num
    rw [h2] at h0
    constructor <;> nlinarith
  | succ i ih =>
    intro hi
    have hrec := qhat_rec v i (by omega)
    have h2 : (2 : ℤ) ^ 16 = 65536 := by norm_num
    rw [h2] at hrec
    obtain ⟨hq0, hq1⟩ := ih (by omega)
    obtain ⟨hv0, hv1⟩ := hb (i + 1)
    constructor <;> nlinarith

/-- Canonical value of the field image of a small non-negative integer. -/
theorem fp_val_of_int (z : ℤ) (h0 : 0 ≤ z) (hlt : z < 18446744069414584321) :
    ((z : Fp)).val = z.toNat := by
  lift z to ℕ using h0
  rw [Int.cast_natCast, Int.toNat_natCast]
  exact ZMod.val_natCast_of_lt (by exact_mod_cast hlt)

/-- Reading limb cells back with `as_canonical_u64() as u16` recovers the
digits. -/
theorem fpLimbs_read (x N : ℕ) :
    (fpLimbs x N).map (fun t : Fp => t.val % 2 ^ 16) = natToU16Digits x N := by
  rw [fpLimbs, List.map_map]
  have : ∀ d ∈ natToU16Digits x N,
      ((fun t : Fp => t.val % 2 ^ 16) ∘ fun d : ℕ => (d : Fp)) d = id d := by
    intro d hd
    have hlt : d < 2 ^ 16 := natToU16Digits_lt x N d hd
    have : ((d : Fp)).val = d :=
      ZMod.val_natCast_of_lt (by
        have hg : goldilocks = 18446744069414584321 := rfl
        omega)
    simp only [Function.comp_apply, this, id]
    exact Nat.mod_eq_of_lt hlt
  rw [List.map_congr_left this, List.map_id]

theorem to_u16_le_limbs_polynomial_eq (x N : ℕ) (hn : Even N) (hx : x < 2 ^ (16 * N)) :
    to_u16_le_limbs_polynomial x N = some (fpLimbs x N) := by
  rw [to_u16_le_limbs_polynomial, bigint_into_u16_digits_eq x N hn hx, Option.map_some']
  rfl

theorem readSlice_here (l1 l2 : List Fp) : readSlice (l1 ++ l2) 0 l1.length = l1 := by
  rw [readSlice, List.drop_zero, List.take_left]

theorem readSlice_skip (l1 l2 : List Fp) (s len : ℕ) :
    readSlice (l1 ++ l2) (l1.length + s) len = readSlice l2 s len := by
  rw [readSlice, readSlice, List.drop_append]

theorem polySub_self_mem {R : Type*} [CommRing R] :
    ∀ (p : List R), ∀ c ∈ polySub p p, c = 0
  | [], c, hc => by simp [polySub] at hc
  | a :: p, c, hc => by
    rw [show polySub (a :: p) (a :: p) = (a - a) :: polySub p p from rfl] at hc
    rcases List.mem_cons.mp hc with h | h
    · rw [h]; ring
    · exact polySub_self_mem p c h

theorem fpLimbs_length (x N : ℕ) : (fpLimbs x N).length = N := by
  simp [fpLimbs, natToU16Digits_length]

theorem readSlice_here' (l1 l2 : List Fp) (n : ℕ) (h : l1.length = n) :
    readSlice (l1 ++ l2) 0 n = l1 := by
  subst h
  exact readSlice_here l1 l2

theorem readSlice_all (l : List Fp) (n : ℕ) (h : l.length = n) :
    readSlice l 0 n = l := by
  subst h
  rw [readSlice, List.drop_zero, List.take_length]

theorem readSlice_skip' (l1 l2 : List Fp) (s' s len : ℕ) (h : s' = l1.length + s) :
    readSlice (l1 ++ l2) s' len = readSlice l2 s len := by
  subst h
  exact readSlice_skip l1 l2 s len

theorem polyAdd_map_map {R : Type*} [CommRing R] (f g : R → R) :
    ∀ l : List R, polyAdd (l.map f) (l.map g) = l.map (fun x => f x + g x)
  | [] => rfl
  | a :: l => by
    simp only [List.map_cons]
    show (f a + g a) :: polyAdd (l.map f) (l.map g) = _
    rw [polyAdd_map_map f g l]

theorem fpAddVanishing_fpLimbs_cast (a b c k m N : ℕ) :
    fpAddVanishing (fpLimbs a N) (fpLimbs b N) (fpLimbs c N) (fpLimbs k N)
        (fpLimbs m N) =
      (fpAddVanishing (intLimbs a N) (intLimbs b N) (intLimbs c N) (intLimbs k N)
        (intLimbs m N)).map (fun z : ℤ => (z : Fp)) := by
  rw [fpLimbs_eq_cast, fpLimbs_eq_cast, fpLimbs_eq_cast, fpLimbs_eq_cast, fpLimbs_eq_cast,
    show (fun z : ℤ => (z : Fp)) = ⇑(Int.castRingHom Fp) from rfl, map_fpAddVanishing]

theorem qhatList_mem_bounds (v : List ℤ) (hv : 2 ≤ v.length)
    (heval : polyEval v 65536 = 0)
    (hb : ∀ j, -131070 ≤ v.getD j 0 ∧ v.getD j 0 ≤ 131070) :
    ∀ z ∈ qhatList v, -2 ≤ z ∧ z ≤ 2 := by
  intro z hz
  rw [qhatList, List.mem_map] at hz
  obtain ⟨i, hi, rfl⟩ := hz
  rw [List.mem_range] at hi
  exact qhat_bounds v hv heval hb i hi

/-- Splitting the shifted quotient coefficient into 16-bit halves and
reconstructing `low + 2^16*high - offset` recovers the quotient coefficient. -/
theorem witness_reconstruct (off : ℕ) (hoffLo : 2 ≤ off) (hoffHi : off + 2 < 2 ^ 32)
    (z : ℤ) (hz0 : -2 ≤ z) (hz1 : z ≤ 2) :
    ((((z : Fp) + (off : Fp)).val % 2 ^ 16 : ℕ) : Fp) +
      65536 * ((((z : Fp) + (off : Fp)).val / 2 ^ 16 % 2 ^ 16 : ℕ) : Fp) - (off : Fp) =
      (z : Fp) := by
  have hoffz : (2 : ℤ) ≤ (off : ℤ) := by exact_mod_cast hoffLo
  have hoffz2 : (off : ℤ) + 2 < 4294967296 := by exact_mod_cast hoffHi
  have hcast : (z : Fp) + (off : Fp) = ((z + (off : ℤ) : ℤ) : Fp) := by push_cast; ring
  have h0 : 0 ≤ z + (off : ℤ) := by omega
  have hlt : z + (off : ℤ) < 18446744069414584321 := by omega
  have hval : ((z + (off : ℤ) : ℤ) : Fp).val = (z + (off : ℤ)).toNat :=
    fp_val_of_int _ h0 hlt
  set t := (z + (off : ℤ)).toNat with ht
  have ht32 : t < 2 ^ 32 := by omega
  rw [hcast, hval]
  have hdiv : t / 2 ^ 16 % 2 ^ 16 = t / 2 ^ 16 := Nat.mod_eq_of_lt (by omega)
  rw [hdiv]
  have hrecon : t % 2 ^ 16 + 2 ^ 16 * (t / 2 ^ 16) = t := Nat.mod_add_div t (2 ^ 16)
  have hfp : ((t % 2 ^ 16 : ℕ) : Fp) + 65536 * ((t / 2 ^ 16 : ℕ) : Fp) = ((t : ℕ) : Fp) := by
    have hcg := congrArg (fun u : ℕ => (u : Fp)) hrecon
    push_cast at hcg
    exact hcg
  rw [hfp]
  have h3 : ((t : ℕ) : ℤ) = z + (off : ℤ) := by
    rw [ht]
    exact Int.toNat_of_nonneg h0
  have h4 : ((t : ℕ) : Fp) = ((z + (off : ℤ) : ℤ) : Fp) := by
    calc ((t : ℕ) : Fp) = (((t : ℕ) : ℤ) : Fp) := by push_cast; rfl
      _ = ((z + (off : ℤ) : ℤ) : Fp) := by rw [h3]
  rw [h4]
  push_cast
  ring

theorem polyAdd_cons {R : Type*} [CommRing R] (a b : R) (l1 l2 : List R) :
    polyAdd (a :: l1) (b :: l2) = (a + b) :: polyAdd l1 l2 := rfl

/-- List-level form of the witness reconstruction: splitting each shifted
quotient coefficient into 16-bit halves, recombining `low + 2^16*high` and
shifting back down recovers the quotient coefficients. -/
theorem witness_map_reconstruct (off : ℕ) (hoffLo : 2 ≤ off)
    (hoffHi : off + 2 < 2 ^ 32) :
    ∀ q : List ℤ, (∀ z ∈ q, -2 ≤ z ∧ z ≤ 2) →
      List.map (fun x : Fp => x - (off : Fp))
        (polyAdd
          (List.map (fun x : Fp => ((x.val % 2 ^ 16 : ℕ) : Fp))
            (q.map (fun z : ℤ => (z : Fp) + (off : Fp))))
          (polyScalarMul 65536
            (List.map (fun x : Fp => ((x.val / 2 ^ 16 % 2 ^ 16 : ℕ) : Fp))
              (q.map (fun z : ℤ => (z : Fp) + (off : Fp)))))) =
        q.map (fun z : ℤ => (z : Fp))
  | [], _ => rfl
  | z :: q, hq => by
    have hz := hq z (List.mem_cons_self z q)
    have hrest : ∀ w ∈ q, -2 ≤ w ∧ w ≤ 2 :=
      fun w hw => hq w (List.mem_cons_of_mem z hw)
    have ih := witness_map_reconstruct off hoffLo hoffHi q hrest
    simp only [List.map_cons, polyScalarMul, polyAdd_cons] at ih ⊢
    rw [witness_reconstruct off hoffLo hoffHi z hz.1 hz.2, ih]

/-- Reading the six register slices of the instruction's row layout. -/
theorem fpAddRow_reads (p_a p_b p_result p_carry wlow whigh : List Fp) (N W : ℕ)
    (hA : p_a.length = N) (hB : p_b.length = N) (hC : p_result.length = N)
    (hD : p_carry.length = N) (hE : wlow.length = W) (hF : whigh.length = W) :
    readSlice (fpAddRow p_a p_b p_result p_carry wlow whigh) 0 N = p_a ∧
    readSlice (fpAddRow p_a p_b p_result p_carry wlow whigh) N N = p_b ∧
    readSlice (fpAddRow p_a p_b p_result p_carry wlow whigh) (2 * N) N = p_result ∧
    readSlice (fpAddRow p_a p_b p_result p_carry wlow whigh) (3 * N) N = p_carry ∧
    readSlice (fpAddRow p_a p_b p_result p_carry wlow whigh) (4 * N) W = wlow ∧
    readSlice (fpAddRow p_a p_b p_result p_carry wlow whigh) (4 * N + W) W = whigh := by
  rw [fpAddRow]
  refine ⟨readSlice_here' _ _ N hA, ?_, ?_, ?_, ?_, ?_⟩
  · rw [readSlice_skip' p_a _ N 0 N (by omega)]
    exact readSlice_here' _ _ N hB
  · rw [readSlice_skip' p_a _ (2 * N) N N (by omega),
      readSlice_skip' p_b _ N 0 N (by omega)]
    exact readSlice_here' _ _ N hC
  · rw [readSlice_skip' p_a _ (3 * N) (2 * N) N (by omega),
      readSlice_skip' p_b _ (2 * N) N N (by omega),
      readSlice_skip' p_result _ N 0 N (by omega)]
    exact readSlice_here' _ _ N hD
  · rw [readSlice_skip' p_a _ (4 * N) (3 * N) W (by omega),
      readSlice_skip' p_b _ (3 * N) (2 * N) W (by omega),
      readSlice_skip' p_result _ (2 * N) N W (by omega),
      readSlice_skip' p_carry _ N 0 W (by omega)]
    exact readSlice_here' _ _ W hE
  · rw [readSlice_skip' p_a _ (4 * N + W) (3 * N + W) W (by omega),
      readSlice_skip' p_b _ (3 * N + W) (2 * N + W) W (by omega),
      readSlice_skip' p_result _ (2 * N + W) (N + W) W (by omega),
      readSlice_skip' p_carry _ (N + W) W W (by omega),
      readSlice_skip' wlow _ W 0 W (by omega)]
    exact readSlice_all _ W hF

/-- C1: for all `a, b < P.modulus`, written as little-endian 16-bit limb
polynomials into the input registers, `FpAddInstruction::write` stores in
the result register the limb representation of `(a + b) mod modulus`, and
evaluating the instruction's constraint (`AirConstraint::eval`) against the
row so written yields only zero constraint values. -/
theorem c1_fpadd_write_correct_and_eval_zero (P : FieldParameters)
    (hN2 : 2 ≤ P.NB_LIMBS) (hNe : Even P.NB_LIMBS) (hm : 0 < P.modulus)
    (hmFit : P.modulus < 2 ^ (16 * P.NB_LIMBS))
    (hoffLo : 2 ≤ P.WITNESS_OFFSET) (hoffHi : P.WITNESS_OFFSET + 2 < 2 ^ 32)
    (a b : ℕ) (ha : a < P.modulus) (hb : b < P.modulus) :
    ∃ p_result p_carry wlow whigh,
      fpAddWrite P (fpLimbs a P.NB_LIMBS) (fpLimbs b P.NB_LIMBS) =
          some (p_result, p_carry, wlow, whigh) ∧
      p_result = fpLimbs ((a + b) % P.modulus) P.NB_LIMBS ∧
      ∀ cval ∈ fpAddEvalConstraints P (fpAddRow (fpLimbs a P.NB_LIMBS)
          (fpLimbs b P.NB_LIMBS) p_result p_carry wlow whigh), cval = 0 := by
  obtain ⟨m, N, off⟩ := P
  dsimp only at hN2 hNe hm hmFit hoffLo hoffHi ha hb ⊢
  have h1N : 1 ≤ N := by omega
  have haFit : a < 2 ^ (16 * N) := lt_trans ha hmFit
  have hbFit : b < 2 ^ (16 * N) := lt_trans hb hmFit
  obtain ⟨hcar, hmod, hk1⟩ := carry_spec a b m hm ha hb
  have hcFit : (a + b) % m < 2 ^ (16 * N) := lt_trans (Nat.mod_lt _ hm) hmFit
  have hkle1 : (a + b - (a + b) % m) / m ≤ 1 := by rw [hcar]; exact hk1
  have hkFit : (a + b - (a + b) % m) / m < 2 ^ (16 * N) := by
    have h216 : (2 : ℕ) ^ 16 ≤ 2 ^ (16 * N) :=
      Nat.pow_le_pow_right (by norm_num) (by omega)
    have h216' : (2 : ℕ) ≤ 2 ^ 16 := by norm_num
    omega
  have hA : digits_to_biguint ((fpLimbs a N).map (fun x : Fp => x.val % 2 ^ 16)) = a := by
    rw [fpLimbs_read, digits_to_biguint_natToU16Digits, Nat.mod_eq_of_lt haFit]
  have hB : digits_to_biguint ((fpLimbs b N).map (fun x : Fp => x.val % 2 ^ 16)) = b := by
    rw [fpLimbs_read, digits_to_biguint_natToU16Digits, Nat.mod_eq_of_lt hbFit]
  have hconvC := to_u16_le_limbs_polynomial_eq ((a + b) % m) N hNe hcFit
  have hconvK := to_u16_le_limbs_polynomial_eq ((a + b - (a + b) % m) / m) N hNe hkFit
  have hconvM := to_u16_le_limbs_polynomial_eq m N hNe hmFit
  have hVfp := fpAddVanishing_fpLimbs_cast a b ((a + b) % m)
    ((a + b - (a + b) % m) / m) m N
  have hVzLen := fpAddVanishing_intLimbs_length a b ((a + b) % m)
    ((a + b - (a + b) % m) / m) m N h1N
  have hVzEval := fpAddVanishing_intLimbs_eval a b m N h1N hm hmFit ha hb
  have hVzBound := fpAddVanishing_intLimbs_bound a b ((a + b) % m)
    ((a + b - (a + b) % m) / m) m N hkle1 h1N
  have hpw : compute_root_quotient_and_shift
      (fpAddVanishing (fpLimbs a N) (fpLimbs b N) (fpLimbs ((a + b) % m) N)
        (fpLimbs ((a + b - (a + b) % m) / m) N) (fpLimbs m N)) off =
      (qhatList (fpAddVanishing (intLimbs a N) (intLimbs b N)
        (intLimbs ((a + b) % m) N) (intLimbs ((a + b - (a + b) % m) / m) N)
        (intLimbs m N))).map (fun z : ℤ => (z : Fp) + (off : Fp)) := by
    rw [hVfp, compute_root_quotient_and_shift,
      rootQuotient_cast _ (by omega) hVzEval, List.map_map]
    rfl
  have hpwLen : ((qhatList (fpAddVanishing (intLimbs a N) (intLimbs b N)
      (intLimbs ((a + b) % m) N) (intLimbs ((a + b - (a + b) % m) / m) N)
      (intLimbs m N))).map (fun z : ℤ => (z : Fp) + (off : Fp))).length = 2 * N - 2 := by
    rw [List.length_map, length_qhatList, hVzLen]
    omega
  refine ⟨fpLimbs ((a + b) % m) N, fpLimbs ((a + b - (a + b) % m) / m) N,
    (split_u32_limbs_to_u16_limbs (compute_root_quotient_and_shift
      (fpAddVanishing (fpLimbs a N) (fpLimbs b N) (fpLimbs ((a + b) % m) N)
        (fpLimbs ((a + b - (a + b) % m) / m) N) (fpLimbs m N)) off)).1,
    (split_u32_limbs_to_u16_limbs (compute_root_quotient_and_shift
      (fpAddVanishing (fpLimbs a N) (fpLimbs b N) (fpLimbs ((a + b) % m) N)
        (fpLimbs ((a + b - (a + b) % m) / m) N) (fpLimbs m N)) off)).2,
    ?_, rfl, ?_⟩
  · simp only [fpAddWrite, hA, hB, hconvC, hconvK, hconvM]
  · intro cval hcval
    rw [hpw] at hcval
    have hsplit1 : (split_u32_limbs_to_u16_limbs ((qhatList (fpAddVanishing
        (intLimbs a N) (intLimbs b N) (intLimbs ((a + b) % m) N)
        (intLimbs ((a + b - (a + b) % m) / m) N) (intLimbs m N))).map
        (fun z : ℤ => (z : Fp) + (off : Fp)))).1 =
        ((qhatList (fpAddVanishing (intLimbs a N) (intLimbs b N)
          (intLimbs ((a + b) % m) N) (intLimbs ((a + b - (a + b) % m) / m) N)
          (intLimbs m N))).map (fun z : ℤ => (z : Fp) + (off : Fp))).map
          (fun x : Fp => ((x.val % 2 ^ 16 : ℕ) : Fp)) := rfl
    have hsplit2 : (split_u32_limbs_to_u16_limbs ((qhatList (fpAddVanishing
        (intLimbs a N) (intLimbs b N) (intLimbs ((a + b) % m) N)
        (intLimbs ((a + b - (a + b) % m) / m) N) (intLimbs m N))).map
        (fun z : ℤ => (z : Fp) + (off : Fp)))).2 =
        ((qhatList (fpAddVanishing (intLimbs a N) (intLimbs b N)
          (intLimbs ((a + b) % m) N) (intLimbs ((a + b - (a + b) % m) / m) N)
          (intLimbs m N))).map (fun z : ℤ => (z : Fp) + (off : Fp))).map
          (fun x : Fp => ((x.val / 2 ^ 16 % 2 ^ 16 : ℕ) : Fp)) := rfl
    obtain ⟨r0, r1, r2, r3, r4, r5⟩ := fpAddRow_reads (fpLimbs a N) (fpLimbs b N)
      (fpLimbs ((a + b) % m) N) (fpLimbs ((a + b - (a + b) % m) / m) N)
      ((((qhatList (fpAddVanishing (intLimbs a N) (intLimbs b N)
        (intLimbs ((a + b) % m) N) (intLimbs ((a + b - (a + b) % m) / m) N)
        (intLimbs m N))).map (fun z : ℤ => (z : Fp) + (off : Fp)))).map
        (fun x : Fp => ((x.val % 2 ^ 16 : ℕ) : Fp)))
      (((qhatList (fpAddVanishing (intLimbs a N) (intLimbs b N)
        (intLimbs ((a + b) % m) N) (intLimbs ((a + b - (a + b) % m) / m) N)
        (intLimbs m N))).map (fun z : ℤ => (z : Fp) + (off : Fp))).map
        (fun x : Fp => ((x.val / 2 ^ 16 % 2 ^ 16 : ℕ) : Fp)))
      N (2 * N - 2) (fpLimbs_length a N) (fpLimbs_length b N)
      (fpLimbs_length _ N) (fpLimbs_length _ N)
      (by rw [List.length_map]; exact hpwLen)
      (by rw [List.length_map]; exact hpwLen)
    simp only [fpAddEvalConstraints, hsplit1, hsplit2] at hcval
    rw [r0, r1, r2, r3, r4, r5] at hcval
    rw [witness_map_reconstruct off hoffLo hoffHi _
      (qhatList_mem_bounds _ (by omega) hVzEval hVzBound)] at hcval
    rw [show [-(65536 : Fp), 1] = ([-(65536 : ℤ), 1].map (fun z : ℤ => (z : Fp)))
        by simp,
      show (fun z : ℤ => (z : Fp)) = ⇑(Int.castRingHom Fp) from rfl,
      ← map_polyMul, qhat_mul_linear _ (by omega) hVzEval,
      show ⇑(Int.castRingHom Fp) = (fun z : ℤ => (z : Fp)) from rfl,
      ← hVfp] at hcval
    exact polySub_self_mem _ _ hcval

/-- Witness for C1 with the two-limb parameters `m = 2^17 + 1`,
`WITNESS_OFFSET = 2^20` and operands `a = b = 65535`. -/
theorem c1_fpadd_write_correct_and_eval_zero_witness :
    (2 ≤ (2 : ℕ) ∧ Even 2 ∧ 0 < 131073 ∧ 131073 < 2 ^ (16 * 2) ∧
      2 ≤ 2 ^ 20 ∧ 2 ^ 20 + 2 < 2 ^ 32 ∧ 65535 < 131073) ∧
    (∃ p_result p_carry wlow whigh,
      fpAddWrite ⟨131073, 2, 2 ^ 20⟩ (fpLimbs 65535 2) (fpLimbs 65535 2) =
          some (p_result, p_carry, wlow, whigh) ∧
      p_result = fpLimbs ((65535 + 65535) % 131073) 2 ∧
      ∀ cval ∈ fpAddEvalConstraints ⟨131073, 2, 2 ^ 20⟩
          (fpAddRow (fpLimbs 65535 2) (fpLimbs 65535 2) p_result p_carry wlow whigh),
        cval = 0) :=
  ⟨⟨le_rfl, ⟨1, rfl⟩, by norm_num, by norm_num, by norm_num, by norm_num, by norm_num⟩,
    c1_fpadd_write_correct_and_eval_zero ⟨131073, 2, 2 ^ 20⟩ le_rfl ⟨1, rfl⟩
      (by norm_num) (by norm_num) (by norm_num) (by norm_num)
      65535 65535 (by norm_num) (by norm_num)⟩

/-- Witness for C6's amended theorem. -/
theorem c6_window_amended_witness :
    (∃ q ∈ rootQuotient [(18446673700670406657 : Fp), 1073741824] invTwo16,
      ¬ ((-q).val < 2 ^ 20 ∨ q.val < 2 ^ 20)) ∧
    (computeRootQuotientAndShiftDebug
        [(18446673700670406657 : Fp), 1073741824] (2 ^ 20) = none ∧
      compute_root_quotient_and_shift
          [(18446673700670406657 : Fp), 1073741824] (2 ^ 20) =
        (rootQuotient [(18446673700670406657 : Fp), 1073741824]
            invTwo16).map (fun x => x + ((2 ^ 20 : ℕ) : Fp))) :=
  ⟨⟨(1073741824 : Fp), by decide, by decide⟩,
    c6_window_amended _ _ ⟨(1073741824 : Fp), by decide, by decide⟩⟩

/-! ### C9: operand size mismatch in expression evaluation -/

theorem zip_map_eq_zipWith {α β γ : Type*} (f : α → β → γ) :
    ∀ (l : List α) (r : List β),
      ((l.zip r).map (fun p => f p.1 p.2)) = List.zipWith f l r
  | [], r => by simp
  | a :: l, [] => by simp
  | a :: l, b :: r => by
    simp only [List.zip_cons_cons, List.map_cons, List.zipWith_cons_cons]
    rw [zip_map_eq_zipWith f l r]

/-- C9 counterexample: evaluating an `Add` (and a `Sub`) node whose operands
have sizes 2 and 1 does not fail; it silently produces the truncated
single-element result. -/
theorem c9_size_mismatch_counterexample :
    (ArithmeticExpressionSlice.Add (.Const [1, 2]) (.Const [3])).eval ⟨[], []⟩ =
        [(4 : Fp)] ∧
    ((ArithmeticExpressionSlice.Add (.Const [1, 2]) (.Const [3])).eval ⟨[], []⟩).length =
        1 ∧
    (ArithmeticExpressionSlice.Sub (.Const [5, 6]) (.Const [1])).eval ⟨[], []⟩ =
        [(4 : Fp)] := by
  refine ⟨by decide, by decide, by decide⟩

/-- C9 amended: `Add`/`Sub` evaluation zips the operand vectors, so a size
mismatch is not detected: the result is the element-wise sum/difference
truncated to the shorter operand's length. -/
theorem c9_size_mismatch_amended (left right : ArithmeticExpressionSlice) (d : RowData) :
    (ArithmeticExpressionSlice.Add left right).eval d =
        List.zipWith (fun x y => x + y) (left.eval d) (right.eval d) ∧
    (ArithmeticExpressionSlice.Sub left right).eval d =
        List.zipWith (fun x y => x - y) (left.eval d) (right.eval d) ∧
    ((ArithmeticExpressionSlice.Add left right).eval d).length =
        min (left.eval d).length (right.eval d).length ∧
    ((ArithmeticExpressionSlice.Sub left right).eval d).length =
        min (left.eval d).length (right.eval d).length := by
  refine ⟨?_, ?_, ?_, ?_⟩
  · rw [ArithmeticExpressionSlice.eval, zip_map_eq_zipWith]
  · rw [ArithmeticExpressionSlice.eval, zip_map_eq_zipWith]
  · rw [ArithmeticExpressionSlice.eval, zip_map_eq_zipWith, List.length_zipWith]
  · rw [ArithmeticExpressionSlice.eval, zip_map_eq_zipWith, List.length_zipWith]

/-! ### C10: constraint evaluation is deterministic -/

theorem foldl_emitScoped (sc : ConstraintScope) :
    ∀ (l : List Fp) (s : ParserState),
      l.foldl (fun st v => emitScoped sc v st) s =
        ⟨s.constraints ++ l.map (fun v => (sc, v))⟩
  | [], s => by simp
  | v :: l, s => by
    rw [List.foldl_cons, foldl_emitScoped sc l (emitScoped sc v s)]
    simp [emitScoped]

theorem foldl_emitScoped_mul (sc : ConstraintScope) (mult : Fp) :
    ∀ (l : List Fp) (s : ParserState),
      l.foldl (fun st v => emitScoped sc (mult * v) st) s =
        ⟨s.constraints ++ l.map (fun v => (sc, mult * v))⟩
  | [], s => by simp
  | v :: l, s => by
    rw [List.foldl_cons, foldl_emitScoped_mul sc mult l (emitScoped sc (mult * v) s)]
    simp [emitScoped]

/-- C10: for every built constraint and fixed row data, constraint
evaluation is a deterministic function of its inputs: the emitted
constraint values are a pure function of the constraint and the row data
(independent of the parser state), so evaluating the same constraint twice
on the same row data appends bit-identical constraint lists. -/
theorem c10_constraint_eval_deterministic (c : Constraint) (d : RowData) :
    (∀ s : ParserState, Constraint.evalS c d s =
      (constraintOutput c d).map (fun l => ⟨s.constraints ++ l⟩)) ∧
    (∀ s t u : ParserState, Constraint.evalS c d s = some t →
      Constraint.evalS c d t = some u →
      t.constraints.drop s.constraints.length =
        u.constraints.drop t.constraints.length) := by
  have hmain : ∀ s : ParserState, Constraint.evalS c d s =
      (constraintOutput c d).map (fun l => ⟨s.constraints ++ l⟩) := by
    intro s
    cases c with
    | Instruction ins =>
      simp only [Constraint.evalS, constraintOutput, FpAddInstructionData.evalS,
        Option.map_some']
      rw [foldl_emitScoped]
    | MulInstruction e ins =>
      simp only [Constraint.evalS, constraintOutput]
      by_cases hsz : e.size = 1
      · rw [if_pos hsz, if_pos hsz]
        cases hev : e.expression.eval d with
        | nil => rfl
        | cons el rest =>
          simp only [Option.map_some', FpAddInstructionData.evalSMul]
          rw [foldl_emitScoped_mul]
      · rw [if_neg hsz, if_neg hsz]
        rfl
    | Arithmetic ac =>
      simp only [Constraint.evalS, constraintOutput, ArithmeticConstraint.evalS,
        Option.map_some']
      rw [foldl_emitScoped]
  refine ⟨hmain, ?_⟩
  intro s t u hst htu
  rw [hmain s] at hst
  rw [hmain t] at htu
  cases hout : constraintOutput c d with
  | none =>
    rw [hout] at hst
    simp at hst
  | some l =>
    rw [hout] at hst htu
    simp only [Option.map_some', Option.some_inj] at hst htu
    rw [← hst, ← htu, ← hst]
    simp [List.drop_left]

/-- Witness for C10 at a concrete arithmetic constraint and states. -/
theorem c10_constraint_eval_deterministic_witness :
    (Constraint.evalS (.Arithmetic (.All ⟨.Const [2], 1⟩)) ⟨[], []⟩ ⟨[]⟩ =
        some ⟨[(ConstraintScope.all, (2 : Fp))]⟩ ∧
      Constraint.evalS (.Arithmetic (.All ⟨.Const [2], 1⟩)) ⟨[], []⟩
          ⟨[(ConstraintScope.all, (2 : Fp))]⟩ =
        some ⟨[(ConstraintScope.all, (2 : Fp)), (ConstraintScope.all, (2 : Fp))]⟩) ∧
    ([(ConstraintScope.all, (2 : Fp))] : List (ConstraintScope × Fp)).drop 0 =
      ([(ConstraintScope.all, (2 : Fp)), (ConstraintScope.all, (2 : Fp))] :
        List (ConstraintScope × Fp)).drop 1 :=
  ⟨⟨by decide, by decide⟩,
    (c10_constraint_eval_deterministic (.Arithmetic (.All ⟨.Const [2], 1⟩)) ⟨[], []⟩).2
      ⟨[]⟩ ⟨[(ConstraintScope.all, (2 : Fp))]⟩
      ⟨[(ConstraintScope.all, (2 : Fp)), (ConstraintScope.all, (2 : Fp))]⟩
      (by decide) (by decide)⟩

/-! ### C4: the scalar-multiplication transition constraints -/

/-- C4: `ed_scalar_mul` registers exactly one transition constraint for
each of the four coordinate registers `result.x`, `result.y`, `temp.x`,
`temp.y`, of the blended form
`next_value = start_bit*next_value + (1 - start_bit)*fresh_value` with
`start_bit` the cycle's start bit read on the next row: when the start bit
is `1` the constraint is vacuous (the register may be overwritten with a
fresh accumulator state), and when it is `0` it forces the register's
next-row value to equal the double-and-add output. -/
theorem c4_ed_scalar_mul_transitions (startBit resultX resultY tempX tempY
    resultNextX resultNextY tempNextX tempNextY : MemorySlice) :
    (edScalarMulTransitionConstraints startBit resultX resultY tempX tempY
        resultNextX resultNextY tempNextX tempNextY =
      [.Transition (exprSub (exprOf resultX.next)
          (exprAdd (exprMul (exprOf startBit.next) (exprOf resultX.next))
            (exprMul (exprSub exprOne (exprOf startBit.next)) (exprOf resultNextX)))),
       .Transition (exprSub (exprOf resultY.next)
          (exprAdd (exprMul (exprOf startBit.next) (exprOf resultY.next))
            (exprMul (exprSub exprOne (exprOf startBit.next)) (exprOf resultNextY)))),
       .Transition (exprSub (exprOf tempX.next)
          (exprAdd (exprMul (exprOf startBit.next) (exprOf tempX.next))
            (exprMul (exprSub exprOne (exprOf startBit.next)) (exprOf tempNextX)))),
       .Transition (exprSub (exprOf tempY.next)
          (exprAdd (exprMul (exprOf startBit.next) (exprOf tempY.next))
            (exprMul (exprSub exprOne (exprOf startBit.next)) (exprOf tempNextY))))]) ∧
    ∀ reg fresh : MemorySlice,
      ((reg, fresh) = (resultX, resultNextX) ∨ (reg, fresh) = (resultY, resultNextY) ∨
        (reg, fresh) = (tempX, tempNextX) ∨ (reg, fresh) = (tempY, tempNextY)) →
      (ArithmeticConstraint.Transition (exprSub (exprOf reg.next)
          (exprAdd (exprMul (exprOf startBit.next) (exprOf reg.next))
            (exprMul (exprSub exprOne (exprOf startBit.next)) (exprOf fresh)))) ∈
        edScalarMulTransitionConstraints startBit resultX resultY tempX tempY
          resultNextX resultNextY tempNextX tempNextY) ∧
      ∀ (d : RowData) (bit vNext vFresh : Fp),
        MemorySlice.eval_slice startBit.next d = [bit] →
        MemorySlice.eval_slice reg.next d = [vNext] →
        MemorySlice.eval_slice fresh d = [vFresh] →
        (exprSub (exprOf reg.next)
            (exprAdd (exprMul (exprOf startBit.next) (exprOf reg.next))
              (exprMul (exprSub exprOne (exprOf startBit.next))
                (exprOf fresh)))).expression.eval d =
          [vNext - (bit * vNext + (1 - bit) * vFresh)] ∧
        (bit = 1 →
          (exprSub (exprOf reg.next)
            (exprAdd (exprMul (exprOf startBit.next) (exprOf reg.next))
              (exprMul (exprSub exprOne (exprOf startBit.next))
                (exprOf fresh)))).expression.eval d = [0]) ∧
        (bit = 0 →
          ((exprSub (exprOf reg.next)
            (exprAdd (exprMul (exprOf startBit.next) (exprOf reg.next))
              (exprMul (exprSub exprOne (exprOf startBit.next))
                (exprOf fresh)))).expression.eval d = [0] ↔ vNext = vFresh)) := by
  constructor
  · rfl
  · intro reg fresh hmem
    have hval : ∀ (d : RowData) (bit vNext vFresh : Fp),
        MemorySlice.eval_slice startBit.next d = [bit] →
        MemorySlice.eval_slice reg.next d = [vNext] →
        MemorySlice.eval_slice fresh d = [vFresh] →
        (exprSub (exprOf reg.next)
            (exprAdd (exprMul (exprOf startBit.next) (exprOf reg.next))
              (exprMul (exprSub exprOne (exprOf startBit.next))
                (exprOf fresh)))).expression.eval d =
          [vNext - (bit * vNext + (1 - bit) * vFresh)] := by
      intro d bit vNext vFresh h1 h2 h3
      simp only [exprSub, exprAdd, exprMul, exprOf, exprOne,
        ArithmeticExpressionSlice.eval, h1, h2, h3]
      simp [List.zip]
    refine ⟨?_, ?_⟩
    · rcases hmem with h | h | h | h <;>
        (rw [Prod.mk.injEq] at h; rw [h.1, h.2]) <;>
        simp [edScalarMulTransitionConstraints]
    · intro d bit vNext vFresh h1 h2 h3
      refine ⟨hval d bit vNext vFresh h1 h2 h3, ?_, ?_⟩
      · intro hbit
        rw [hval d bit vNext vFresh h1 h2 h3, hbit]
        norm_num
      · intro hbit
        rw [hval d bit vNext vFresh h1 h2 h3, hbit]
        constructor
        · intro hzero
          have h0 : vNext - (0 * vNext + (1 - 0) * vFresh) = 0 :=
            (List.cons.inj hzero).1
          have h' : vNext - vFresh = 0 := by
            calc vNext - vFresh = vNext - (0 * vNext + (1 - 0) * vFresh) := by ring
              _ = 0 := h0
          exact sub_eq_zero.mp h'
        · intro heq
          rw [heq]
          norm_num

/-- Witness for C4 at concrete register slices and row values: column `8` of
the next row holds the start bit `1`, the `result.x` register reads `7` on the
next row, the fresh value is `7`, and the transition constraint evaluates to
the blended value and to zero. -/
theorem c4_ed_scalar_mul_transitions_witness :
    (exprSub (exprOf (MemorySlice.Local 0 1).next)
        (exprAdd (exprMul (exprOf (MemorySlice.Local 8 1).next)
            (exprOf (MemorySlice.Local 0 1).next))
          (exprMul (exprSub exprOne (exprOf (MemorySlice.Local 8 1).next))
            (exprOf (MemorySlice.Local 4 1))))).expression.eval
        ⟨[0, 0, 0, 0, (7 : Fp)], [(7 : Fp), 0, 0, 0, 0, 0, 0, 0, 1]⟩ =
      [(7 : Fp) - ((1 : Fp) * 7 + (1 - 1) * 7)] ∧
    (exprSub (exprOf (MemorySlice.Local 0 1).next)
        (exprAdd (exprMul (exprOf (MemorySlice.Local 8 1).next)
            (exprOf (MemorySlice.Local 0 1).next))
          (exprMul (exprSub exprOne (exprOf (MemorySlice.Local 8 1).next))
            (exprOf (MemorySlice.Local 4 1))))).expression.eval
        ⟨[0, 0, 0, 0, (7 : Fp)], [(7 : Fp), 0, 0, 0, 0, 0, 0, 0, 1]⟩ = [0] :=
  have h := (c4_ed_scalar_mul_transitions (MemorySlice.Local 8 1) (MemorySlice.Local 0 1)
    (MemorySlice.Local 1 1) (MemorySlice.Local 2 1) (MemorySlice.Local 3 1)
    (MemorySlice.Local 4 1) (MemorySlice.Local 5 1) (MemorySlice.Local 6 1)
    (MemorySlice.Local 7 1)).2 (MemorySlice.Local 0 1) (MemorySlice.Local 4 1) (Or.inl rfl)
  have h2 := h.2 ⟨[0, 0, 0, 0, (7 : Fp)], [(7 : Fp), 0, 0, 0, 0, 0, 0, 0, 1]⟩ 1 7 7
    (by decide) (by decide) (by decide)
  ⟨h2.1, h2.2.1 rfl⟩

/-! ### C3: the emitted lookup constraints -/

theorem c3lk_satisfies : satisfiesConstraints 2 c3cs := by decide

theorem c3lk_inv_one : ((0 : ZMod 97) - 1)⁻¹ = 96 :=
  inv_eq_of_mul_eq_one_right (by decide)

theorem c3lk_inv_two : ((0 : ZMod 97) - 2)⁻¹ = 48 :=
  inv_eq_of_mul_eq_one_right (by decide)

/-- C3 counterexample: a two-row lookup trace satisfying every constraint
`LogLookup::eval` emits, whose values-side accumulator is `0` on row 0
while the row-0 running-sum contribution is `-3 = 94`: the values-side
first-row constraint is the accumulator itself, not
`accumulator - contribution`, so the claimed triple does not hold on the
queried-values side. -/
theorem c3_lookup_constraint_counterexample :
    LogLookup.evalConstraints c3lk = some c3cs ∧
    satisfiesConstraints 2 c3cs ∧
    valuesRowContributionSpec c3lk.challenge c3lk.values 0 = 94 ∧
    c3lk.log_lookup_accumulator 0 = 0 ∧
    c3lk.log_lookup_accumulator 0 ≠
      valuesRowContributionSpec c3lk.challenge c3lk.values 0 := by
  have hc : valuesRowContributionSpec c3lk.challenge c3lk.values 0 = 94 := by
    simp only [valuesRowContributionSpec, c3lk, List.map_cons, List.map_nil,
      List.sum_cons, List.sum_nil]
    rw [c3lk_inv_one, c3lk_inv_two]
    decide
  refine ⟨rfl, c3lk_satisfies, hc, by decide, ?_⟩
  rw [hc]
  decide

/-- C3 amended: on a trace satisfying the emitted constraints, the
table-side accumulator obeys the claimed triple (first row equals the
row-0 contribution, transitions add the next row's contribution, the
digest binds the last row), but the values-side accumulator is instead
forced to *zero* on row 0, its transition adds the current row's final
row-accumulator (so `acc(i+1)` holds the contributions of rows `0..=i`),
and the digest binds the last-row accumulator, which therefore omits the
last row's contribution. -/
theorem c3_lookup_constraint_amended {K : Type*} [CommRing K]
    (lk : LogLookup K) (n : ℕ) (_hn : 1 ≤ n)
    (cs : List (ConstraintScope × (ℕ → K)))
    (hsome : LogLookup.evalConstraints lk = some cs)
    (hsat : satisfiesConstraints n cs) :
    lk.table_data.table_accumulator 0 = tableRowSum lk.table_data 0 ∧
    (∀ i, i + 1 < n → lk.table_data.table_accumulator (i + 1) =
      lk.table_data.table_accumulator i + tableRowSum lk.table_data (i + 1)) ∧
    lk.table_data.digest (n - 1) = lk.table_data.table_accumulator (n - 1) ∧
    lk.log_lookup_accumulator 0 = 0 ∧
    (∀ i, i + 1 < n → lk.log_lookup_accumulator (i + 1) =
      lk.log_lookup_accumulator i +
        ((lk.row_accumulators.drop 1).getLastD (fun _ : ℕ => 0)) i) ∧
    lk.digest (n - 1) = lk.log_lookup_accumulator (n - 1) := by
  unfold LogLookup.evalConstraints at hsome
  split at hsome
  case _ t0 m0 l0 prev a0 b0 acc0 rest ht hm hl hprev hchunks =>
    rw [Option.some_inj] at hsome
    subst hsome
    have hTfirst : (ConstraintScope.first,
        fun i : ℕ => lk.table_data.table_accumulator i - tableRowSum lk.table_data i) ∈
          LookupTable.evalConstraints lk.table_data := by
      unfold LookupTable.evalConstraints
      exact List.mem_append_right _ (List.mem_cons_self _ _)
    have hTtrans : (ConstraintScope.transition,
        fun i : ℕ => lk.table_data.table_accumulator (i + 1) -
          (lk.table_data.table_accumulator i + tableRowSum lk.table_data (i + 1))) ∈
          LookupTable.evalConstraints lk.table_data := by
      unfold LookupTable.evalConstraints
      exact List.mem_append_right _ (List.mem_cons_of_mem _ (List.mem_cons_self _ _))
    have hTlast : (ConstraintScope.last,
        fun i : ℕ => lk.table_data.digest i - lk.table_data.table_accumulator i) ∈
          LookupTable.evalConstraints lk.table_data := by
      unfold LookupTable.evalConstraints
      refine List.mem_append_right _ ?_
      exact List.mem_cons_of_mem _ (List.mem_cons_of_mem _ (List.mem_cons_self _ _))
    have hgetLastD : (lk.row_accumulators.drop 1).getLastD (fun _ : ℕ => 0) = prev := by
      rw [List.getLastD_eq_getLast?, hprev, Option.getD_some]
    refine ⟨?_, ?_, ?_, ?_, ?_, ?_⟩
    · have h := hsat _ (by
        exact List.mem_append_left _ (List.mem_append_left _
          (List.mem_append_left _ hTfirst)))
      simp only [scopeHolds] at h
      exact sub_eq_zero.mp h
    · intro i hi
      have h := hsat _ (by
        exact List.mem_append_left _ (List.mem_append_left _
          (List.mem_append_left _ hTtrans)))
      simp only [scopeHolds] at h
      exact sub_eq_zero.mp (h i hi)
    · have h := hsat _ (by
        exact List.mem_append_left _ (List.mem_append_left _
          (List.mem_append_left _ hTlast)))
      simp only [scopeHolds] at h
      exact sub_eq_zero.mp h
    · have h := hsat (ConstraintScope.first, fun i : ℕ => lk.log_lookup_accumulator i)
        (List.mem_append_right _ (List.mem_cons_of_mem _ (List.mem_cons_self _ _)))
      simp only [scopeHolds] at h
      exact h
    · intro i hi
      have h := hsat (ConstraintScope.transition, fun i : ℕ =>
          lk.log_lookup_accumulator (i + 1) - lk.log_lookup_accumulator i - prev i)
        (List.mem_append_right _ (List.mem_cons_self _ _))
      simp only [scopeHolds] at h
      have hv := h i hi
      rw [sub_sub] at hv
      rw [hgetLastD]
      exact sub_eq_zero.mp hv
    · have h := hsat (ConstraintScope.last,
          fun i : ℕ => lk.digest i - lk.log_lookup_accumulator i)
        (List.mem_append_right _
          (List.mem_cons_of_mem _ (List.mem_cons_of_mem _ (List.mem_cons_self _ _))))
      simp only [scopeHolds] at h
      exact sub_eq_zero.mp h
  case _ =>
    exact absurd hsome (by simp)

/-- Witness for the amended C3 theorem at the concrete two-row lookup. -/
theorem c3_lookup_constraint_amended_witness :
    (1 ≤ 2 ∧ LogLookup.evalConstraints c3lk = some c3cs ∧
      satisfiesConstraints 2 c3cs) ∧
    c3lk.log_lookup_accumulator 0 = 0 ∧
    c3lk.digest 1 = c3lk.log_lookup_accumulator 1 :=
  have h := c3_lookup_constraint_amended c3lk 2 (by decide) c3cs rfl c3lk_satisfies
  ⟨⟨by decide, rfl, c3lk_satisfies⟩, h.2.2.2.1, h.2.2.2.2.2⟩

/-! ### C8: the table-side writer satisfies the table-side constraints -/

theorem zip_map_self_left {α β : Type*} (f : α → β) :
    ∀ l : List α, (l.map f).zip l = l.map (fun x => (f x, x))
  | [] => rfl
  | a :: t => by simp [zip_map_self_left f t]

/-- C8: after `write_log_lookup_table` runs on a trace with
`num_rows ≥ 1` and a challenge `beta` with `beta - table` invertible on
every row, each written `multiplicities_table_log` entry satisfies
`t*(beta - table) = mult` on every row, the written accumulator at row `i`
is the sum of the row sums of rows `0..=i`, the digest equals the
last-row accumulator, and the written trace satisfies every table-side
constraint the `LookupTable` evaluator emits. -/
theorem c8_write_log_lookup_table_correct {K : Type*} [Field K] (n : ℕ) (β : K)
    (table mult : List (ℕ → K)) (_hn : 1 ≤ n)
    (hinv : ∀ t ∈ table, ∀ i < n, β - t i ≠ 0) :
    (∀ p ∈ (write_log_lookup_table n β table mult).multiplicities_table_log.zip
        (table.zip mult), ∀ i < n, p.1 i * (β - p.2.1 i) = p.2.2 i) ∧
    (∀ j : ℕ, (write_log_lookup_table n β table mult).table_accumulator j =
      ∑ r ∈ Finset.range (j + 1),
        tableRowSum (write_log_lookup_table n β table mult) r) ∧
    (write_log_lookup_table n β table mult).digest (n - 1) =
      (write_log_lookup_table n β table mult).table_accumulator (n - 1) ∧
    satisfiesConstraints n
      (LookupTable.evalConstraints (write_log_lookup_table n β table mult)) := by
  have hacc : ∀ j : ℕ, (write_log_lookup_table n β table mult).table_accumulator j =
      ∑ r ∈ Finset.range (j + 1),
        tableRowSum (write_log_lookup_table n β table mult) r :=
    fun _ => rfl
  have hentry : ∀ p ∈ (write_log_lookup_table n β table mult).multiplicities_table_log.zip
      (table.zip mult), ∀ i < n, p.1 i * (β - p.2.1 i) = p.2.2 i := by
    intro p hp i hi
    rw [show (write_log_lookup_table n β table mult).multiplicities_table_log =
        (table.zip mult).map
          (fun p : (ℕ → K) × (ℕ → K) => fun i : ℕ => p.2 i / (β - p.1 i)) from rfl,
      zip_map_self_left] at hp
    rcases List.mem_map.mp hp with ⟨q, hq, rfl⟩
    exact div_mul_cancel₀ (q.2 i) (hinv q.1 (List.of_mem_zip hq).1 i hi)
  refine ⟨hentry, hacc, rfl, ?_⟩
  intro p hp
  unfold LookupTable.evalConstraints at hp
  rcases List.mem_append.mp hp with hmem | hmem
  · rcases List.mem_map.mp hmem with ⟨q, hq, rfl⟩
    simp only [scopeHolds]
    intro i hi
    have h1 := hentry q hq i hi
    have hch : (write_log_lookup_table n β table mult).challenge = β := rfl
    rw [hch, h1, sub_self]
  · simp only [List.mem_cons, List.not_mem_nil, or_false] at hmem
    rcases hmem with rfl | rfl | rfl
    · simp only [scopeHolds]
      rw [hacc 0, Finset.sum_range_one, sub_self]
    · simp only [scopeHolds]
      intro i hi
      rw [hacc (i + 1), hacc i, Finset.sum_range_succ]
      ring
    · simp only [scopeHolds]
      have hd : (write_log_lookup_table n β table mult).digest (n - 1) =
          (write_log_lookup_table n β table mult).table_accumulator (n - 1) := rfl
      rw [hd, sub_self]

/-- Witness for C8 on a two-row trace over `ZMod 97` with `beta = 1`, a
one-entry table column of `3`s and multiplicity column of `1`s. -/
theorem c8_write_log_lookup_table_correct_witness :
    (1 ≤ 2 ∧
      ∀ t ∈ [fun _ : ℕ => (3 : ZMod 97)], ∀ i < 2, (1 : ZMod 97) - t i ≠ 0) ∧
    satisfiesConstraints 2 (LookupTable.evalConstraints
      (write_log_lookup_table 2 (1 : ZMod 97)
        [fun _ : ℕ => 3] [fun _ : ℕ => 1])) :=
  ⟨⟨by decide, by decide⟩,
    (c8_write_log_lookup_table_correct 2 1 [fun _ : ℕ => 3] [fun _ : ℕ => 1]
      (by decide) (by decide)).2.2.2⟩

/-! ### C7: builder column-budget enforcement -/

theorem checkOne_spec (L : AirParametersBudgets) (b : BuilderIndices) (k : BudgetKind) :
    (budgetOf L k < allocatedOf L b k ∧
      checkOne L b k = .error (k, panicMessage k (allocatedOf L b k) (budgetOf L k))) ∨
    (allocatedOf L b k ≤ budgetOf L k ∧
      checkOne L b k = .ok (if allocatedOf L b k < budgetOf L k then
        [warnMessage k (budgetOf L k - allocatedOf L b k)] else [])) := by
  unfold checkOne
  by_cases h : budgetOf L k < allocatedOf L b k
  · exact Or.inl ⟨h, by rw [if_pos h]⟩
  · refine Or.inr ⟨by omega, ?_⟩
    rw [if_neg h]
    by_cases h2 : allocatedOf L b k < budgetOf L k
    · rw [if_pos h2, if_pos h2]
    · rw [if_neg h2, if_neg h2]

/-- C7: if any of the three column kinds is allocated past its declared
budget, the budget checks of `build()` abort with the panic message naming
an over-budget kind (free, then arithmetic, then extended are checked, so
the first offender is named); if every kind is within budget, `build()`
proceeds, printing exactly one unused-columns warning per kind that is
strictly under budget. -/
theorem c7_builder_budget_enforcement (L : AirParametersBudgets) (b : BuilderIndices) :
    ((∃ k, budgetOf L k < allocatedOf L b k) →
      ∃ k msg, buildChecks L b = .error (k, msg) ∧
        budgetOf L k < allocatedOf L b k ∧
        msg = panicMessage k (allocatedOf L b k) (budgetOf L k)) ∧
    ((∀ k, allocatedOf L b k ≤ budgetOf L k) →
      buildChecks L b = .ok (
        (if allocatedOf L b .free < budgetOf L .free then
          [warnMessage .free (budgetOf L .free - allocatedOf L b .free)] else []) ++
        (if allocatedOf L b .arithmetic < budgetOf L .arithmetic then
          [warnMessage .arithmetic
            (budgetOf L .arithmetic - allocatedOf L b .arithmetic)] else []) ++
        (if allocatedOf L b .extended < budgetOf L .extended then
          [warnMessage .extended
            (budgetOf L .extended - allocatedOf L b .extended)] else []))) := by
  constructor
  · rintro ⟨k, hk⟩
    rcases checkOne_spec L b .free with ⟨h1, e1⟩ | ⟨h1, e1⟩
    · refine ⟨.free, _, ?_, h1, rfl⟩
      unfold buildChecks
      simp only [e1]
    · rcases checkOne_spec L b .arithmetic with ⟨h2, e2⟩ | ⟨h2, e2⟩
      · refine ⟨.arithmetic, _, ?_, h2, rfl⟩
        unfold buildChecks
        simp only [e1, e2]
      · rcases checkOne_spec L b .extended with ⟨h3, e3⟩ | ⟨h3, e3⟩
        · refine ⟨.extended, _, ?_, h3, rfl⟩
          unfold buildChecks
          simp only [e1, e2, e3]
        · exfalso
          cases k with
          | free => omega
          | arithmetic => omega
          | extended => omega
  · intro hall
    rcases checkOne_spec L b .free with ⟨h1, e1⟩ | ⟨h1, e1⟩
    · exact absurd (hall .free) (by omega)
    · rcases checkOne_spec L b .arithmetic with ⟨h2, e2⟩ | ⟨h2, e2⟩
      · exact absurd (hall .arithmetic) (by omega)
      · rcases checkOne_spec L b .extended with ⟨h3, e3⟩ | ⟨h3, e3⟩
        · exact absurd (hall .extended) (by omega)
        · unfold buildChecks
          simp only [e1, e2, e3]

/-- Witness for C7: with budgets `(arithmetic, free, extended) = (10, 5, 7)`,
allocating 11 arithmetic columns aborts with the arithmetic message, while
allocating 9 arithmetic and 5 extended columns succeeds with warnings. -/
theorem c7_builder_budget_enforcement_witness :
    ((∃ k, budgetOf ⟨10, 5, 7⟩ k < allocatedOf ⟨10, 5, 7⟩ ⟨15, 11, 20⟩ k) ∧
      ∃ k msg, buildChecks ⟨10, 5, 7⟩ ⟨15, 11, 20⟩ = .error (k, msg) ∧
        budgetOf ⟨10, 5, 7⟩ k < allocatedOf ⟨10, 5, 7⟩ ⟨15, 11, 20⟩ k ∧
        msg = panicMessage k (allocatedOf ⟨10, 5, 7⟩ ⟨15, 11, 20⟩ k)
          (budgetOf ⟨10, 5, 7⟩ k)) ∧
    ((∀ k, allocatedOf ⟨10, 5, 7⟩ ⟨15, 9, 20⟩ k ≤ budgetOf ⟨10, 5, 7⟩ k) ∧
      buildChecks ⟨10, 5, 7⟩ ⟨15, 9, 20⟩ = .ok (
        (if allocatedOf ⟨10, 5, 7⟩ ⟨15, 9, 20⟩ .free < budgetOf ⟨10, 5, 7⟩ .free then
          [warnMessage .free (budgetOf ⟨10, 5, 7⟩ .free -
            allocatedOf ⟨10, 5, 7⟩ ⟨15, 9, 20⟩ .free)] else []) ++
        (if allocatedOf ⟨10, 5, 7⟩ ⟨15, 9, 20⟩ .arithmetic <
            budgetOf ⟨10, 5, 7⟩ .arithmetic then
          [warnMessage .arithmetic (budgetOf ⟨10, 5, 7⟩ .arithmetic -
            allocatedOf ⟨10, 5, 7⟩ ⟨15, 9, 20⟩ .arithmetic)] else []) ++
        (if allocatedOf ⟨10, 5, 7⟩ ⟨15, 9, 20⟩ .extended <
            budgetOf ⟨10, 5, 7⟩ .extended then
          [warnMessage .extended (budgetOf ⟨10, 5, 7⟩ .extended -
            allocatedOf ⟨10, 5, 7⟩ ⟨15, 9, 20⟩ .extended)] else []))) :=
  have hall : ∀ k, allocatedOf ⟨10, 5, 7⟩ ⟨15, 9, 20⟩ k ≤ budgetOf ⟨10, 5, 7⟩ k := by
    intro k
    cases k <;> decide
  ⟨⟨⟨.arithmetic, by decide⟩,
      (c7_builder_budget_enforcement ⟨10, 5, 7⟩ ⟨15, 11, 20⟩).1
        ⟨.arithmetic, by decide⟩⟩,
    ⟨hall, (c7_builder_budget_enforcement ⟨10, 5, 7⟩ ⟨15, 9, 20⟩).2 hall⟩⟩

end Curta
